import Mathlib

/-!
Verification of the distributed sparse matrix-vector multiply core of
vexcl (src/vexcl/spmat.hpp) against its natural-language specification.

The embedding works over exact rational arithmetic (`ℚ` in place of the
C++ `real` template parameter), models the raw `row`/`col`/`val` pointer
arrays as functions `ℕ → ℕ` / `ℕ → ℚ`, models `std::set<column_t>` as a
strictly sorted `List ℕ` maintained by ordered insertion, and models the
OpenCL kernels by the per-row sums they compute.  Device buffers become
plain functions; asynchronous scheduling is irrelevant to the values
computed (every read is gated on the write that produces it, per the
source's event wait-lists), so `mul` is modelled as the function from
inputs to the final contents of the output vector, plus a separate
operation trace used for the frame/effect claim.
-/

namespace Vexcl

/-- Input matrix in CSR form, as handed to `SpMat::SpMat`: a row-pointer
array `row` (used at indices `0..n`), a column array `col` and a value
array `val` (used at indices `row 0 .. row n`), modelled as total
functions exactly like the raw pointers of the source. -/
structure CSRIn where
  row : ℕ → ℕ
  col : ℕ → ℕ
  val : ℕ → ℚ

/-- The sum computed by a device kernel loop `for (j = a; j < a + c; j++) sum += f j;`.
All of the spmv kernels in spmat.hpp accumulate with this loop shape. -/
def kernelSum (f : ℕ → ℚ) : ℕ → ℕ → ℚ
  | _, 0 => 0
  | a, c + 1 => f a + kernelSum f (a + 1) c

/-- The nonzero positions of row `i`: the index range `[row i, row (i+1))`
scanned by `for (j = row[i]; j < row[i+1]; j++)`. -/
def rowIdx (M : CSRIn) (i : ℕ) : List ℕ :=
  List.range' (M.row i) (M.row (i + 1) - M.row i)

/-- Ordered insertion into a strictly sorted list: the model of
`std::set<column_t>::insert` (ignoring duplicates, keeping ascending order). -/
def setInsert (c : ℕ) : List ℕ → List ℕ
  | [] => [c]
  | a :: as =>
    if c < a then c :: a :: as
    else if c = a then a :: as
    else a :: setInsert c as

/-- Insert every element of `l` into the sorted list `s`
(`s.insert(l.begin(), l.end())` on a `std::set`). -/
def insertList (s : List ℕ) (l : List ℕ) : List ℕ :=
  l.foldl (fun acc c => setInsert c acc) s

/-- The row strip `[part d, part (d+1))` owned by device `d`. -/
def strip (part : ℕ → ℕ) (d : ℕ) : List ℕ :=
  List.range' (part d) (part (d + 1) - part d)

/-- The ghost-set scan of `SpMat::setup_exchange` (spmat.hpp:444-453): for each
row of device `d`'s own strip and each nonzero of that row, a column
outside `[part d, part (d+1))` is inserted into `remote_cols[d]`. -/
def remote_cols (M : CSRIn) (part : ℕ → ℕ) (d : ℕ) : List ℕ :=
  ((strip part d).flatMap (fun i =>
      (rowIdx M i).filter (fun j =>
        decide (M.col j < part d) || decide (part (d + 1) ≤ M.col j)))).foldl
    (fun s j => setInsert (M.col j) s) []

/-- The merged transfer list of `SpMat::setup_exchange` (spmat.hpp:455-463):
the union of all devices' `remote_cols` in one sorted, de-duplicated
list `cols_to_send`. -/
def cols_to_send (M : CSRIn) (part : ℕ → ℕ) (numDev : ℕ) : List ℕ :=
  (List.range numDev).foldl (fun s d => insertList s (remote_cols M part d)) []

/-- Model of `std::lower_bound` on a sorted list: the number of leading elements
smaller than `x` (the first position whose element is `≥ x`). -/
def lowerBound : List ℕ → ℕ → ℕ
  | [], _ => 0
  | c :: cs, x => if c < x then lowerBound cs x + 1 else 0

/-- From `SpMat::setup_exchange` (spmat.hpp:483-490): the supply boundaries
`cidx`, computed by successive `std::lower_bound` searches of the
partition boundaries over the sorted transfer list, each search starting
from the previous result. -/
def cidx (M : CSRIn) (part : ℕ → ℕ) (numDev : ℕ) : ℕ → ℕ
  | 0 => lowerBound (cols_to_send M part numDev) (part 0)
  | d + 1 =>
    cidx M part numDev d +
      lowerBound ((cols_to_send M part numDev).drop (cidx M part numDev d)) (part (d + 1))

/-- The loop of spmat.hpp:475-476: scan the transfer list left to right
and record (in order) the positions whose column belongs to `S`;
`i` is the position of the head of the remaining list. -/
def colsToRecvAux (S : List ℕ) : List ℕ → ℕ → List ℕ
  | [], _ => []
  | c :: cs, i =>
    if c ∈ S then i :: colsToRecvAux S cs (i + 1) else colsToRecvAux S cs (i + 1)

/-- The list `exc[d].cols_to_recv` (spmat.hpp:475-476): transfer-list positions of
device `d`'s remote columns, in ascending order. -/
def cols_to_recv (M : CSRIn) (part : ℕ → ℕ) (numDev : ℕ) (d : ℕ) : List ℕ :=
  colsToRecvAux (remote_cols M part d) (cols_to_send M part numDev) 0

/-- The remote-to-local renumbering `r2l` built identically in both engine
constructors (spmat.hpp:566-570 and 827-831): iterating the `std::set`
`remote_cols` in ascending order and assigning consecutive indices gives
every remote column its rank in the sorted set. -/
def r2l (S : List ℕ) (c : ℕ) : ℕ :=
  S.countP (fun b => decide (b < c))

/-- The local entries of row `i` for the strip `[beg, fin)`, in scan
order: nonzeros whose column satisfies `beg <= col[j] && col[j] < fin`,
with the column renumbered to the strip-local offset `col[j] - beg`
(spmat.hpp:574-577 and 835-837). -/
def localPart (M : CSRIn) (beg fin : ℕ) (i : ℕ) : List (ℕ × ℚ) :=
  ((rowIdx M i).filter (fun j => decide (beg ≤ M.col j) && decide (M.col j < fin))).map
    (fun j => (M.col j - beg, M.val j))

/-- The remote entries of row `i` for the strip `[beg, fin)` with remote
column set `S`, in scan order: nonzeros whose column falls outside
`[beg, fin)`, with the column renumbered to its ghost-buffer index
`r2l S (col j)` (spmat.hpp:578-583 and 838-842). -/
def remotePart (M : CSRIn) (beg fin : ℕ) (S : List ℕ) (i : ℕ) : List (ℕ × ℚ) :=
  ((rowIdx M i).filter (fun j => !(decide (beg ≤ M.col j) && decide (M.col j < fin)))).map
    (fun j => (r2l S (M.col j), M.val j))

/-- The per-entry term `val * x[col]` contributed by one stored entry. -/
def entryTerm (x : ℕ → ℚ) (e : ℕ × ℚ) : ℚ := e.2 * x e.1

/-- The full contribution of one stored row: `sum_j val_j * x[col_j]`. -/
def rowContrib (es : List (ℕ × ℚ)) (x : ℕ → ℚ) : ℚ :=
  (es.map (entryTerm x)).sum

/-- The `SpMatELL` local width `loc.w` (spmat.hpp:547-555): the maximum
number of local nonzeros over the rows of the strip. -/
def locw (M : CSRIn) (beg fin : ℕ) : ℕ :=
  ((List.range' beg (fin - beg)).map (fun i => (localPart M beg fin i).length)).foldr max 0

/-- The `SpMatELL` remote width `rem.w` (spmat.hpp:554): the maximum number
of remote nonzeros (`row[i+1] - row[i] - w`) over the rows of the strip. -/
def remw (M : CSRIn) (beg fin : ℕ) (S : List ℕ) : ℕ :=
  ((List.range' beg (fin - beg)).map (fun i => (remotePart M beg fin S i).length)).foldr max 0

/-- One row of the ELL spmv kernel (spmat.hpp:642-649): a loop of exactly
`w` iterations reading slot `j` of the row; slot `j` holds the `j`-th
stored entry of the row, and slots beyond the row's entry count hold the
sentinel column `NCOL = (column_t)(-1)` (modelled by `none`, with padding
value 0), which the kernel skips.  The flat `row + j*pitch` addressing of
the padded device arrays (with `row < n <= pitch`) is an injective
re-indexing of the (row, slot) pairs read here. -/
def ellRow (w : ℕ) (es : List (ℕ × ℚ)) (x : ℕ → ℚ) : ℚ :=
  kernelSum (fun j =>
    match es[j]? with
    | some e => entryTerm x e
    | none => 0) 0 w

/-- Model of `SpMatELL::mul_local` (spmat.hpp:691-730): dispatches `spmv_set`
(`y[row] = alpha*sum`) or `spmv_add` (`y[row] += alpha*sum`) over all
rows `row < n` of the strip, with the local width and local arrays. -/
def ell_mul_local (M : CSRIn) (beg fin : ℕ) (x y : ℕ → ℚ) (alpha : ℚ) (append : Bool) :
    ℕ → ℚ :=
  fun k =>
    if k < fin - beg then
      if append then y k + alpha * ellRow (locw M beg fin) (localPart M beg fin (beg + k)) x
      else alpha * ellRow (locw M beg fin) (localPart M beg fin (beg + k)) x
    else y k

/-- Model of `SpMatELL::mul_remote` (spmat.hpp:731-756): always `spmv_add`, with
the remote width and remote arrays; `x` is the device's ghost buffer. -/
def ell_mul_remote (M : CSRIn) (beg fin : ℕ) (S : List ℕ) (x y : ℕ → ℚ) (alpha : ℚ) :
    ℕ → ℚ :=
  fun k =>
    if k < fin - beg then
      y k + alpha * ellRow (remw M beg fin S) (remotePart M beg fin S (beg + k)) x
    else y k

/-- The per-row entry lists of the rebuilt local CSR triplet for the strip
`[beg, fin)` (spmat.hpp:833-847); concatenating them yields the `lcol`/
`lval` arrays and their length prefix sums yield `lrow`. -/
def lrows (M : CSRIn) (beg fin : ℕ) : List (List (ℕ × ℚ)) :=
  (List.range' beg (fin - beg)).map (localPart M beg fin)

/-- The per-row entry lists of the rebuilt remote CSR triplet
(spmat.hpp:833-847, `rcol`/`rval`/`rrow`). -/
def rrows (M : CSRIn) (beg fin : ℕ) (S : List ℕ) : List (List (ℕ × ℚ)) :=
  (List.range' beg (fin - beg)).map (remotePart M beg fin S)

/-- Row-pointer array of a device CSR matrix: entry `i` is the number of
entries stored for the rows before `i` (`lrow[i]`/`rrow[i]`). -/
def rowPtr (rows : List (List (ℕ × ℚ))) (i : ℕ) : ℕ :=
  ((rows.take i).map List.length).sum

/-- Flat column array of a device CSR matrix (`lcol`/`rcol`). -/
def flatCols (rows : List (List (ℕ × ℚ))) : List ℕ :=
  rows.flatten.map Prod.fst

/-- Flat value array of a device CSR matrix (`lval`/`rval`). -/
def flatVals (rows : List (List (ℕ × ℚ))) : List ℚ :=
  rows.flatten.map Prod.snd

/-- One row of the CSR spmv kernel (spmat.hpp:913-922): `for (j = row[i];
j < row[i+1]; j++) sum += val[j] * x[col[j]];`. -/
def csrRow (rows : List (List (ℕ × ℚ))) (x : ℕ → ℚ) (i : ℕ) : ℚ :=
  kernelSum (fun j => (flatVals rows).getD j 0 * x ((flatCols rows).getD j 0))
    (rowPtr rows i) (rowPtr rows (i + 1) - rowPtr rows i)

/-- Model of `SpMatCSR::mul_local` (spmat.hpp:965-1000), general (rebuilt) path:
`spmv_set` or `spmv_add` over the `n = fin - beg` rows of the strip with
the rebuilt local triplet. -/
def csr_mul_local (M : CSRIn) (beg fin : ℕ) (x y : ℕ → ℚ) (alpha : ℚ) (append : Bool) :
    ℕ → ℚ :=
  fun i =>
    if i < fin - beg then
      if append then y i + alpha * csrRow (lrows M beg fin) x i
      else alpha * csrRow (lrows M beg fin) x i
    else y i

/-- Model of `SpMatCSR::mul_remote` (spmat.hpp:1002-1022): always `spmv_add` with
the rebuilt remote triplet; `x` is the device's ghost buffer. -/
def csr_mul_remote (M : CSRIn) (beg fin : ℕ) (S : List ℕ) (x y : ℕ → ℚ) (alpha : ℚ) :
    ℕ → ℚ :=
  fun i =>
    if i < fin - beg then y i + alpha * csrRow (rrows M beg fin S) x i
    else y i

/-- The `SpMatCSR::SpMatCSR` fast path (spmat.hpp:785-802, taken when
`beg == 0 && remote_cols.empty()`): the caller's `row`/`col`/`val` arrays
are uploaded unchanged, so `mul_local` reads them directly. -/
def csr_fast_mul_local (M : CSRIn) (fin : ℕ) (x y : ℕ → ℚ) (alpha : ℚ) (append : Bool) :
    ℕ → ℚ :=
  fun i =>
    if i < fin then
      if append then
        y i + alpha * kernelSum (fun j => M.val j * x (M.col j)) (M.row i) (M.row (i + 1) - M.row i)
      else alpha * kernelSum (fun j => M.val j * x (M.col j)) (M.row i) (M.row (i + 1) - M.row i)
    else y i

/-- Device `d`'s slice of a distributed vector: the buffer `x(d)` holds
the entries of the global vector starting at row `part d`. -/
def xdist (part : ℕ → ℕ) (x : ℕ → ℚ) (d : ℕ) : ℕ → ℚ :=
  fun k => x (part d + k)

/-- The contents of the device buffer `exc[d].cols_to_send`: the slice
`[cidx d, cidx (d+1))` of the merged transfer list after the in-place
decrement `cols_to_send[i] -= part[d]` (spmat.hpp:502-507). -/
def sendCols (M : CSRIn) (part : ℕ → ℕ) (numDev : ℕ) (d : ℕ) : List ℕ :=
  ((((cols_to_send M part numDev).drop (cidx M part numDev d)).take
      (cidx M part numDev (d + 1) - cidx M part numDev d)).map (fun c => c - part d))

/-- The device whose supply sub-range `[cidx d, cidx (d+1))` contains
transfer-list position `i` — the (unique) `d` whose gather loop iteration
writes `rx[i]` in `SpMat::mul` (spmat.hpp:383-402). -/
def owner (numDev : ℕ) (cix : ℕ → ℕ) (i : ℕ) : Option ℕ :=
  (List.range numDev).find? (fun d => decide (cix d ≤ i) && decide (i < cix (d + 1)))

/-- The host staging array `rx` after step 1 of `SpMat::mul`: position
`i` was filled by its owning device's `gather_vals_to_send` kernel
(`vals_to_send[i] = vals[cols_to_send[i]]`, spmat.hpp:330-331) followed by
the read into `rx[cidx d ..]`; positions owned by no device keep their
(never read) default. -/
def rxVal (M : CSRIn) (part : ℕ → ℕ) (numDev : ℕ) (x : ℕ → ℚ) (i : ℕ) : ℚ :=
  match owner numDev (cidx M part numDev) i with
  | some d => xdist part x d ((sendCols M part numDev d).getD (i - cidx M part numDev d) 0)
  | none => 0

/-- The ghost buffer `exc[d].rx` after step 4's scatter in `SpMat::mul`
(spmat.hpp:422-429): slot `k` receives `rx[cols_to_recv[k]]`. -/
def ghost (M : CSRIn) (part : ℕ → ℕ) (numDev : ℕ) (d : ℕ) (x : ℕ → ℚ) : ℕ → ℚ :=
  fun k => rxVal M part numDev x ((cols_to_recv M part numDev d).getD k 0)

/-- The value-level effect of `SpMat::mul` (spmat.hpp:377-435) on device
`d`'s slice of the output vector: the local multiply (issued only when
the device's strip is non-empty, since `mtx[d]` is only constructed then,
spmat.hpp:359-374) followed — when the transfer list is non-empty and the
device has remote columns — by the accumulating remote multiply against
the scattered ghost buffer.  The engine is `SpMatCSR` for CPU devices and
`SpMatELL` otherwise (spmat.hpp:363-372), selected by `isCPU`. -/
def dev_mul (M : CSRIn) (part : ℕ → ℕ) (numDev : ℕ) (isCPU : ℕ → Bool) (d : ℕ)
    (x : ℕ → ℚ) (yd : ℕ → ℚ) (alpha : ℚ) (append : Bool) : ℕ → ℚ :=
  let beg := part d
  let fin := part (d + 1)
  let S := remote_cols M part d
  let xd := xdist part x d
  let y1 :=
    if beg < fin then
      if isCPU d then csr_mul_local M beg fin xd yd alpha append
      else ell_mul_local M beg fin xd yd alpha append
    else yd
  if (cols_to_send M part numDev).length ≠ 0 ∧ (cols_to_recv M part numDev d).length ≠ 0 then
    if isCPU d then csr_mul_remote M beg fin S (ghost M part numDev d x) y1 alpha
    else ell_mul_remote M beg fin S (ghost M part numDev d x) y1 alpha
  else y1

/-- Reference single-device multiply, following the spec's words: for a
matrix given as a CSR triplet, row `i` of `alpha * A * x` is
`alpha * sum_{j in [row i, row (i+1))} val j * x (col j)`. -/
def refSpMV (M : CSRIn) (x : ℕ → ℚ) (alpha : ℚ) (i : ℕ) : ℚ :=
  alpha * ∑ j ∈ Finset.Ico (M.row i) (M.row (i + 1)), M.val j * x (M.col j)

/-- The operations `SpMat::mul` can issue, per device. -/
inductive MulOp where
  | gatherOp (d : ℕ)
  | transferOp (d : ℕ)
  | localMulOp (d : ℕ)
  | waitOp (d : ℕ)
  | scatterOp (d : ℕ)
  | remoteMulOp (d : ℕ)
deriving DecidableEq

/-- The sequence of operations issued by one call of `SpMat::mul`
(spmat.hpp:377-435), with the source's guards: the gather/transfer and
wait/scatter/remote phases run only when `rx.size()` is non-zero (`rx`
is resized to the transfer list's length at construction and is empty
otherwise); gather and wait run per device with a non-empty supply
sub-range, scatter and remote multiply per device with non-empty
`cols_to_recv`, the local multiply per device with a constructed engine
(non-empty strip). -/
def mulTrace (M : CSRIn) (part : ℕ → ℕ) (numDev : ℕ) : List MulOp :=
  (if (cols_to_send M part numDev).length ≠ 0 then
      (List.range numDev).flatMap (fun d =>
        if cidx M part numDev (d + 1) - cidx M part numDev d ≠ 0 then
          [MulOp.gatherOp d, MulOp.transferOp d]
        else [])
    else []) ++
  (List.range numDev).flatMap (fun d =>
    if part d < part (d + 1) then [MulOp.localMulOp d] else []) ++
  (if (cols_to_send M part numDev).length ≠ 0 then
      (List.range numDev).flatMap (fun d =>
        if cidx M part numDev d < cidx M part numDev (d + 1) then [MulOp.waitOp d] else []) ++
      (List.range numDev).flatMap (fun d =>
        if (cols_to_recv M part numDev d).length ≠ 0 then
          [MulOp.scatterOp d, MulOp.remoteMulOp d]
        else [])
    else [])

/-- The exchange-machinery allocations of `SpMat::setup_exchange`. -/
inductive ExcAlloc where
  | ghostBuf (d : ℕ)
  | hostStaging
  | sendColsBuf (d : ℕ)
  | sendValsBuf (d : ℕ)
deriving DecidableEq

/-- The exchange buffers allocated by `SpMat::setup_exchange`
(spmat.hpp:466-510): nothing at all when the merged transfer list is
empty; otherwise, per device with remote columns the ghost buffer
`exc[d].rx` (with its host staging pair `cols_to_recv`/`vals_to_recv`),
the host staging array `rx`, and per device with a non-empty supply
sub-range the send buffers `exc[d].cols_to_send`/`exc[d].vals_to_send`. -/
def exchangeAllocs (M : CSRIn) (part : ℕ → ℕ) (numDev : ℕ) : List ExcAlloc :=
  if (cols_to_send M part numDev).length ≠ 0 then
    (List.range numDev).flatMap (fun d =>
      if (remote_cols M part d).length ≠ 0 then [ExcAlloc.ghostBuf d] else []) ++
    [ExcAlloc.hostStaging] ++
    (List.range numDev).flatMap (fun d =>
      if cidx M part numDev (d + 1) - cidx M part numDev d ≠ 0 then
        [ExcAlloc.sendColsBuf d, ExcAlloc.sendValsBuf d]
      else [])
  else []

/-- Model of `SpMatCCSR::mul` (spmat.hpp:1192-1229) together with its kernels
(spmat.hpp:1127-1170): for each row `i < n`, the row-pointer table entry
is selected indirectly through `pos = idx[i]`, and the inner loop reads
`x[i + col[j]]` — the stored (signed) column offsets are relative to the
row index.  `spmv_set` writes `y[i] = alpha*sum`, `spmv_add` accumulates. -/
def ccsr_mul (n : ℕ) (idx row : ℕ → ℕ) (col : ℕ → ℤ) (val : ℕ → ℚ)
    (x : ℤ → ℚ) (y : ℕ → ℚ) (alpha : ℚ) (append : Bool) : ℕ → ℚ :=
  fun i =>
    if i < n then
      if append then
        y i + alpha * kernelSum (fun j => val j * x ((i : ℤ) + col j))
          (row (idx i)) (row (idx i + 1) - row (idx i))
      else
        alpha * kernelSum (fun j => val j * x ((i : ℤ) + col j))
          (row (idx i)) (row (idx i + 1) - row (idx i))
    else y i

/-- Modelled from the spec: `alignup` lives in vexcl/util.hpp, which is
not part of this repository snapshot.  Per the spec (§4.1), boundaries
are "rounded to an alignment granularity": `alignup x g` rounds `x` up
to the next multiple of the granularity `g` (vexcl's default is 16). -/
def alignup (x g : ℕ) : ℕ :=
  if x % g = 0 then x else x - x % g + g

/-- Cumulative device weights (`cumsum` in `partition_by_spmv_perf`,
spmat.hpp:1340-1348); the weight of device `d` is `device_spmv_perf`'s
reciprocal measured time, modelled as an abstract rational `w d`. -/
def cumsumW (w : ℕ → ℚ) : ℕ → ℚ
  | 0 => 0
  | d + 1 => cumsumW w d + w d

/-- Model of `partition_by_spmv_perf` (spmat.hpp:1333-1357): `part[0] = 0`; for
more than one device each intermediate boundary is
`min n (alignup (n * cumsum[d+1] / cumsum.back()))` (the `double`
intermediate truncated to `size_t`, hence the floor), and the final
boundary is unconditionally overwritten with `n`. -/
def partition_by_spmv_perf (n numDev : ℕ) (w : ℕ → ℚ) (d : ℕ) : ℕ :=
  if d = numDev then n
  else if d = 0 then 0
  else if 1 < numDev ∧ d < numDev then
    min n (alignup (Nat.floor ((n : ℚ) * cumsumW w d / cumsumW w numDev)) 16)
  else 0

/-- Well-formed column data: every column index referenced by a row below
`n` lies in `[0, n)` (the hypothesis under which the spec's claims about
an `n`-column matrix are stated). -/
abbrev colsOk (M : CSRIn) (n : ℕ) : Prop :=
  ∀ i, i < n → ∀ j, j < M.row (i + 1) → M.row i ≤ j → M.col j < n

/-- A valid partition of `n` rows over `numDev` devices: starts at 0,
ends at `n`, non-decreasing boundaries. -/
abbrev validPart (part : ℕ → ℕ) (numDev n : ℕ) : Prop :=
  part 0 = 0 ∧ part numDev = n ∧ ∀ d, d < numDev → part d ≤ part (d + 1)

/-- Concrete 4x4 tridiagonal matrix (the spec §8 scenario): diagonal 2,
off-diagonal -1. -/
def triM : CSRIn :=
  ⟨fun i => [0, 2, 5, 8, 10].getD i 0,
   fun j => [0, 1, 0, 1, 2, 1, 2, 3, 2, 3].getD j 0,
   fun j => ([2, -1, -1, 2, -1, -1, 2, -1, -1, 2] : List ℚ).getD j 0⟩

/-- Concrete partition of the 4 rows over 2 devices: rows 0-1 and 2-3. -/
def triPart : ℕ → ℕ := fun d => [0, 2, 4].getD d 0

/-- Concrete single-device partition of the 4 rows. -/
def onePart : ℕ → ℕ := fun d => [0, 4].getD d 0

/-- A concrete mixed engine assignment: device 0 is a CPU (Row-Pointer
engine), device 1 is not (Padded-Width engine). -/
def triCPU : ℕ → Bool := fun d => d = 0

/-- A concrete input vector. -/
def triX : ℕ → ℚ := fun i => [10, 20, 30, 40].getD i 0

/-- A concrete initial output vector. -/
def triY : ℕ → ℚ := fun _ => 99

/-- Concrete CCSR instance: 3 rows sharing `m = 2` stencil shapes;
row-pointer table `row = [0,1,3]`, shape 0 = {offset 0}, shape 1 =
{offsets -1, 0}; rows 0 and 2 use shape 0 and row 1 uses shape 1. -/
def ccsrIdx : ℕ → ℕ := fun i => [0, 1, 0].getD i 0

/-- Concrete CCSR shared row-pointer table. -/
def ccsrRowTab : ℕ → ℕ := fun p => [0, 1, 3].getD p 0

/-- Concrete CCSR column offsets (relative to the row index). -/
def ccsrCol : ℕ → ℤ := fun j => ([0, -1, 0] : List ℤ).getD j 0

/-- Concrete CCSR values. -/
def ccsrVal : ℕ → ℚ := fun j => ([5, 7, 11] : List ℚ).getD j 0

/-- Concrete device weights, unequal: device 0 measures weight 1,
device 1 weight 3. -/
def wAB : ℕ → ℚ := fun d => if d = 0 then 1 else 3

/-- The same devices in the opposite order: device 0 now has weight 3,
device 1 weight 1 (i.e. `wAB` composed with the transposition of 0/1). -/
def wBA : ℕ → ℚ := fun d => if d = 0 then 3 else 1

/-- A concrete input vector for the stencil-relative engine (indexed by
`ℤ`, since the stored column offsets are signed). -/
def ccsrX : ℤ → ℚ := fun z => (z : ℚ) + 2

/-! ### Basic lemmas about the kernel loop and list helpers -/

theorem kernelSum_range (f : ℕ → ℚ) (a c : ℕ) :
    kernelSum f a c = ∑ j ∈ Finset.range c, f (a + j) := by
  induction c generalizing a with
  | zero => simp [kernelSum]
  | succ c ih =>
    rw [kernelSum, ih (a + 1), Finset.sum_range_succ']
    simp [Nat.add_comm, Nat.add_assoc, Nat.add_left_comm, add_comm]

theorem kernelSum_congr (f g : ℕ → ℚ) (a c : ℕ)
    (h : ∀ j, a ≤ j → j < a + c → f j = g j) : kernelSum f a c = kernelSum g a c := by
  rw [kernelSum_range, kernelSum_range]
  refine Finset.sum_congr rfl (fun j hj => ?_)
  exact h (a + j) (Nat.le_add_right a j) (by simp at hj; omega)

theorem kernelSum_Ico (f : ℕ → ℚ) (a b : ℕ) :
    kernelSum f a (b - a) = ∑ j ∈ Finset.Ico a b, f j := by
  rcases Nat.le_total a b with h | h
  · rw [Finset.sum_Ico_eq_sum_range, kernelSum_range]
  · rw [Nat.sub_eq_zero_of_le h, Finset.Ico_eq_empty (by omega)]
    simp [kernelSum]

theorem mem_rowIdx (M : CSRIn) (i j : ℕ) :
    j ∈ rowIdx M i ↔ M.row i ≤ j ∧ j < M.row (i + 1) := by
  rw [rowIdx, List.mem_range'_1]
  omega

theorem mem_strip (part : ℕ → ℕ) (d i : ℕ) :
    i ∈ strip part d ↔ part d ≤ i ∧ i < part (d + 1) := by
  rw [strip, List.mem_range'_1]
  omega

theorem list_sum_getD (l : List ℚ) :
    l.sum = ∑ j ∈ Finset.range l.length, l.getD j 0 := by
  induction l with
  | nil => simp
  | cons a t ih =>
    rw [List.sum_cons, List.length_cons, Finset.sum_range_succ']
    simp [ih, add_comm]

theorem rowContrib_eq_sum (es : List (ℕ × ℚ)) (x : ℕ → ℚ) :
    rowContrib es x = ∑ j ∈ Finset.range es.length, entryTerm x (es.getD j (0, 0)) := by
  rw [rowContrib, list_sum_getD, List.length_map]
  refine Finset.sum_congr rfl (fun j hj => ?_)
  rw [Finset.mem_range] at hj
  rw [List.getD_eq_getElem?_getD, List.getD_eq_getElem?_getD, List.getElem?_map,
    List.getElem?_eq_getElem hj]
  simp

/-! ### The sorted-set model of `std::set` -/

theorem mem_setInsert (c x : ℕ) (l : List ℕ) :
    x ∈ setInsert c l ↔ x = c ∨ x ∈ l := by
  induction l with
  | nil => simp [setInsert]
  | cons a as ih =>
    by_cases h1 : c < a
    · simp [setInsert, h1]
    · by_cases h2 : c = a
      · subst h2
        simp [setInsert, h1]
      · simp only [setInsert, if_neg h1, if_neg h2, List.mem_cons, ih]
        tauto

theorem sorted_setInsert (c : ℕ) (l : List ℕ) (h : l.Sorted (· < ·)) :
    (setInsert c l).Sorted (· < ·) := by
  induction l with
  | nil => simp [setInsert]
  | cons a as ih =>
    rw [List.sorted_cons] at h
    by_cases h1 : c < a
    · rw [setInsert, if_pos h1, List.sorted_cons]
      refine ⟨fun b hb => ?_, List.sorted_cons.2 h⟩
      rcases List.mem_cons.1 hb with rfl | hb
      · exact h1
      · exact lt_trans h1 (h.1 b hb)
    · by_cases h2 : c = a
      · rw [setInsert, if_neg h1, if_pos h2]
        exact List.sorted_cons.2 h
      · rw [setInsert, if_neg h1, if_neg h2, List.sorted_cons]
        refine ⟨fun b hb => ?_, ih h.2⟩
        rcases (mem_setInsert c b as).1 hb with rfl | hb
        · omega
        · exact h.1 b hb

theorem mem_foldl_setInsert (g : ℕ → ℕ) (l : List ℕ) (s : List ℕ) (x : ℕ) :
    x ∈ l.foldl (fun acc j => setInsert (g j) acc) s ↔ x ∈ s ∨ ∃ j ∈ l, g j = x := by
  induction l generalizing s with
  | nil => simp
  | cons a as ih =>
    rw [List.foldl_cons, ih, mem_setInsert]
    simp only [List.mem_cons]
    constructor
    · rintro ((rfl | hs) | ⟨j, hj, rfl⟩)
      · exact Or.inr ⟨a, Or.inl rfl, rfl⟩
      · exact Or.inl hs
      · exact Or.inr ⟨j, Or.inr hj, rfl⟩
    · rintro (hs | ⟨j, (rfl | hj), rfl⟩)
      · exact Or.inl (Or.inr hs)
      · exact Or.inl (Or.inl rfl)
      · exact Or.inr ⟨j, hj, rfl⟩

theorem sorted_foldl_setInsert (g : ℕ → ℕ) (l : List ℕ) (s : List ℕ)
    (h : s.Sorted (· < ·)) :
    (l.foldl (fun acc j => setInsert (g j) acc) s).Sorted (· < ·) := by
  induction l generalizing s with
  | nil => exact h
  | cons a as ih => exact ih _ (sorted_setInsert _ _ h)

theorem sorted_remote_cols (M : CSRIn) (part : ℕ → ℕ) (d : ℕ) :
    (remote_cols M part d).Sorted (· < ·) := by
  exact sorted_foldl_setInsert _ _ _ (by simp)

theorem mem_remote_cols (M : CSRIn) (part : ℕ → ℕ) (d : ℕ) (c : ℕ) :
    c ∈ remote_cols M part d ↔
      ∃ i, part d ≤ i ∧ i < part (d + 1) ∧
        ∃ j, M.row i ≤ j ∧ j < M.row (i + 1) ∧ M.col j = c ∧
          (c < part d ∨ part (d + 1) ≤ c) := by
  rw [remote_cols, mem_foldl_setInsert]
  simp only [List.mem_nil_iff, false_or, List.mem_flatMap, List.mem_filter, mem_strip,
    mem_rowIdx, Bool.or_eq_true, decide_eq_true_eq]
  constructor
  · rintro ⟨j, ⟨i, ⟨hi1, hi2⟩, ⟨hj1, hj2⟩, hrem⟩, rfl⟩
    exact ⟨i, hi1, hi2, j, hj1, hj2, rfl, hrem⟩
  · rintro ⟨i, hi1, hi2, j, hj1, hj2, rfl, hrem⟩
    exact ⟨j, ⟨i, ⟨hi1, hi2⟩, ⟨hj1, hj2⟩, hrem⟩, rfl⟩

theorem mem_insertList (s l : List ℕ) (x : ℕ) :
    x ∈ insertList s l ↔ x ∈ s ∨ x ∈ l := by
  induction l generalizing s with
  | nil => simp [insertList]
  | cons a as ih =>
    have hstep : insertList s (a :: as) = insertList (setInsert a s) as := rfl
    rw [hstep, ih, mem_setInsert]
    simp only [List.mem_cons]
    tauto

theorem sorted_insertList (s l : List ℕ) (h : s.Sorted (· < ·)) :
    (insertList s l).Sorted (· < ·) := by
  induction l generalizing s with
  | nil => exact h
  | cons a as ih => exact ih (setInsert a s) (sorted_setInsert _ _ h)

theorem sorted_cols_to_send (M : CSRIn) (part : ℕ → ℕ) (numDev : ℕ) :
    (cols_to_send M part numDev).Sorted (· < ·) := by
  rw [cols_to_send]
  have : ∀ (l : List ℕ) (s : List ℕ), s.Sorted (· < ·) →
      (l.foldl (fun s d => insertList s (remote_cols M part d)) s).Sorted (· < ·) := by
    intro l
    induction l with
    | nil => intro s hs; exact hs
    | cons a as ih => intro s hs; exact ih _ (sorted_insertList _ _ hs)
  exact this _ _ (by simp)

theorem mem_cols_to_send (M : CSRIn) (part : ℕ → ℕ) (numDev : ℕ) (c : ℕ) :
    c ∈ cols_to_send M part numDev ↔ ∃ d, d < numDev ∧ c ∈ remote_cols M part d := by
  rw [cols_to_send]
  induction numDev with
  | zero => simp
  | succ D ih =>
    rw [List.range_succ, List.foldl_append, List.foldl_cons, List.foldl_nil, mem_insertList, ih]
    constructor
    · rintro (⟨d, hd, hc⟩ | hc)
      · exact ⟨d, Nat.lt_succ_of_lt hd, hc⟩
      · exact ⟨D, Nat.lt_succ_self D, hc⟩
    · rintro ⟨d, hd, hc⟩
      rcases Nat.lt_succ_iff_lt_or_eq.1 hd with hd | rfl
      · exact Or.inl ⟨d, hd, hc⟩
      · exact Or.inr hc

/-- Two strictly sorted lists with the same members are equal. -/
theorem sorted_ext (l₁ l₂ : List ℕ) (h₁ : l₁.Sorted (· < ·)) (h₂ : l₂.Sorted (· < ·))
    (h : ∀ x, x ∈ l₁ ↔ x ∈ l₂) : l₁ = l₂ := by
  induction l₁ generalizing l₂ with
  | nil =>
    cases l₂ with
    | nil => rfl
    | cons b bs => exact absurd ((h b).2 (List.mem_cons_self b bs)) (List.not_mem_nil b)
  | cons a as ih =>
    cases l₂ with
    | nil => exact absurd ((h a).1 (List.mem_cons_self a as)) (List.not_mem_nil a)
    | cons b bs =>
      rw [List.sorted_cons] at h₁ h₂
      have hab : a = b := by
        rcases List.mem_cons.1 ((h a).1 (List.mem_cons_self a as)) with h' | h'
        · exact h'
        · rcases List.mem_cons.1 ((h b).2 (List.mem_cons_self b bs)) with h'' | h''
          · omega
          · have := h₁.1 b h''
            have := h₂.1 a h'
            omega
      subst hab
      have : as = bs := by
        refine ih bs h₁.2 h₂.2 (fun x => ⟨fun hx => ?_, fun hx => ?_⟩)
        · rcases List.mem_cons.1 ((h x).1 (List.mem_cons.2 (Or.inr hx))) with rfl | h'
          · exact absurd (h₁.1 x hx) (lt_irrefl x)
          · exact h'
        · rcases List.mem_cons.1 ((h x).2 (List.mem_cons.2 (Or.inr hx))) with rfl | h'
          · exact absurd (h₂.1 x hx) (lt_irrefl x)
          · exact h'
      rw [this]

/-! ### The supply sub-ranges computed by binary search -/

theorem lowerBound_eq_countP (l : List ℕ) (x : ℕ) (h : l.Sorted (· < ·)) :
    lowerBound l x = l.countP (fun c => decide (c < x)) := by
  induction l with
  | nil => simp [lowerBound]
  | cons a as ih =>
    rw [List.sorted_cons] at h
    rw [lowerBound, List.countP_cons]
    by_cases ha : a < x
    · rw [if_pos ha, ih h.2]
      simp [ha]
    · rw [if_neg ha]
      have : as.countP (fun c => decide (c < x)) = 0 := by
        rw [List.countP_eq_zero]
        intro b hb
        have := h.1 b hb
        simp only [decide_eq_true_eq]
        omega
      simp [this, ha]

theorem sorted_getD_lt_iff (l : List ℕ) (x : ℕ) (h : l.Sorted (· < ·)) :
    ∀ i, i < l.length → (l.getD i 0 < x ↔ i < l.countP (fun c => decide (c < x))) := by
  induction l with
  | nil => simp
  | cons a as ih =>
    rw [List.sorted_cons] at h
    intro i hi
    cases i with
    | zero =>
      rw [List.getD_cons_zero, List.countP_cons]
      by_cases ha : a < x
      · simp [ha, List.countP_cons]
      · have : as.countP (fun c => decide (c < x)) = 0 := by
          rw [List.countP_eq_zero]
          intro b hb
          have := h.1 b hb
          simp only [decide_eq_true_eq]
          omega
        simp [ha, this]
    | succ i =>
      rw [List.getD_cons_succ, List.countP_cons]
      rw [List.length_cons] at hi
      by_cases ha : a < x
      · rw [ih h.2 i (by omega)]
        simp [ha]
      · have h0 : as.countP (fun c => decide (c < x)) = 0 := by
          rw [List.countP_eq_zero]
          intro b hb
          have := h.1 b hb
          simp only [decide_eq_true_eq]
          omega
        have hnot : ¬ as.getD i 0 < x := by
          rw [ih h.2 i (by omega), h0]
          omega
        simpa [ha, h0] using hnot

theorem take_countP_lt (l : List ℕ) (x : ℕ) (h : l.Sorted (· < ·)) :
    ∀ y ∈ l.take (l.countP (fun c => decide (c < x))), y < x := by
  induction l with
  | nil => simp
  | cons a as ih =>
    rw [List.sorted_cons] at h
    rw [List.countP_cons]
    by_cases ha : a < x
    · have hone : (if decide (a < x) = true then 1 else 0) = 1 := by simp [ha]
      rw [hone, List.take_succ_cons]
      intro y hy
      rcases List.mem_cons.1 hy with rfl | hy
      · exact ha
      · exact ih h.2 y hy
    · have h0 : as.countP (fun c => decide (c < x)) = 0 := by
        rw [List.countP_eq_zero]
        intro b hb
        have := h.1 b hb
        simp only [decide_eq_true_eq]
        omega
      simp [ha, h0]

theorem cidx_eq_countP (M : CSRIn) (part : ℕ → ℕ) (numDev : ℕ)
    (hmono : ∀ k, k < numDev → part k ≤ part (k + 1)) :
    ∀ d, d ≤ numDev →
      cidx M part numDev d =
        (cols_to_send M part numDev).countP (fun c => decide (c < part d)) := by
  have hs := sorted_cols_to_send M part numDev
  intro d
  induction d with
  | zero => intro _; exact lowerBound_eq_countP _ _ hs
  | succ d ih =>
    intro hd
    have hdn : d < numDev := by omega
    have hdr := ih (by omega)
    have hple : (cols_to_send M part numDev).countP (fun c => decide (c < part d)) ≤
        (cols_to_send M part numDev).length := List.countP_le_length _
    rw [cidx, hdr, lowerBound_eq_countP _ _ (List.Pairwise.drop hs)]
    conv_rhs =>
      rw [← List.take_append_drop
        ((cols_to_send M part numDev).countP (fun c => decide (c < part d)))
        (cols_to_send M part numDev)]
    rw [List.countP_append]
    have htake : ((cols_to_send M part numDev).take
        ((cols_to_send M part numDev).countP (fun c => decide (c < part d)))).countP
          (fun c => decide (c < part (d + 1))) =
        ((cols_to_send M part numDev).take
          ((cols_to_send M part numDev).countP (fun c => decide (c < part d)))).length := by
      rw [List.countP_eq_length]
      intro b hb
      have hb' := take_countP_lt (cols_to_send M part numDev) (part d) hs b hb
      have := hmono d hdn
      simp only [decide_eq_true_eq]
      omega
    rw [htake, List.length_take, Nat.min_eq_left hple]

theorem supply_range_iff (M : CSRIn) (part : ℕ → ℕ) (numDev : ℕ)
    (hmono : ∀ k, k < numDev → part k ≤ part (k + 1)) (d i : ℕ) (hd : d < numDev)
    (hi : i < (cols_to_send M part numDev).length) :
    (cidx M part numDev d ≤ i ∧ i < cidx M part numDev (d + 1)) ↔
      (part d ≤ (cols_to_send M part numDev).getD i 0 ∧
        (cols_to_send M part numDev).getD i 0 < part (d + 1)) := by
  have hs := sorted_cols_to_send M part numDev
  rw [cidx_eq_countP M part numDev hmono d (by omega),
    cidx_eq_countP M part numDev hmono (d + 1) (by omega)]
  have h1 := sorted_getD_lt_iff _ (part d) hs i hi
  have h2 := sorted_getD_lt_iff _ (part (d + 1)) hs i hi
  omega

theorem part_chain (part : ℕ → ℕ) (numDev : ℕ)
    (hmono : ∀ k, k < numDev → part k ≤ part (k + 1)) :
    ∀ a b, a ≤ b → b ≤ numDev → part a ≤ part b := by
  intro a b hab hbn
  induction b with
  | zero =>
    have ha : a = 0 := by omega
    rw [ha]
  | succ b ih =>
    rcases Nat.eq_or_lt_of_le hab with heq | hlt
    · rw [heq]
    · exact le_trans (ih (by omega) (by omega)) (hmono b (by omega))

theorem tile_exists (part : ℕ → ℕ) (numDev : ℕ)
    (_hmono : ∀ k, k < numDev → part k ≤ part (k + 1)) :
    ∀ D, D ≤ numDev → ∀ c, part 0 ≤ c → c < part D →
      ∃ d, d < D ∧ part d ≤ c ∧ c < part (d + 1) := by
  intro D
  induction D with
  | zero => intro _ c h1 h2; omega
  | succ D ih =>
    intro hD c h1 h2
    by_cases hc : c < part D
    · obtain ⟨d, hd, h⟩ := ih (by omega) c h1 hc
      exact ⟨d, by omega, h⟩
    · exact ⟨D, by omega, by omega, h2⟩

theorem tile_unique (part : ℕ → ℕ) (numDev : ℕ)
    (hmono : ∀ k, k < numDev → part k ≤ part (k + 1)) (c : ℕ) (d e : ℕ)
    (hd : d < numDev) (he : e < numDev)
    (h1 : part d ≤ c ∧ c < part (d + 1)) (h2 : part e ≤ c ∧ c < part (e + 1)) : d = e := by
  by_contra hne
  rcases Nat.lt_or_ge d e with h | h
  · have := part_chain part numDev hmono (d + 1) e (by omega) (by omega)
    omega
  · have : e < d := by omega
    have := part_chain part numDev hmono (e + 1) d (by omega) (by omega)
    omega

theorem cols_to_send_lt_n (M : CSRIn) (part : ℕ → ℕ) (numDev n : ℕ)
    (hcols : colsOk M n) (hmono : ∀ k, k < numDev → part k ≤ part (k + 1))
    (hpn : part numDev = n) (c : ℕ) (hc : c ∈ cols_to_send M part numDev) : c < n := by
  obtain ⟨d, hd, hcd⟩ := (mem_cols_to_send M part numDev c).1 hc
  obtain ⟨i, hi1, hi2, j, hj1, hj2, hcj, _⟩ := (mem_remote_cols M part d c).1 hcd
  have hin : i < n := by
    have := part_chain part numDev hmono (d + 1) numDev (by omega) (le_refl _)
    omega
  have := hcols i hin j hj2 hj1
  omega

/-! ### The receive index lists and the ghost buffer -/

theorem colsToRecvAux_shift (S l : List ℕ) :
    ∀ i, colsToRecvAux S l i = (colsToRecvAux S l 0).map (fun p => p + i) := by
  induction l with
  | nil => intro i; simp [colsToRecvAux]
  | cons c cs ih =>
    intro i
    by_cases hc : c ∈ S
    · rw [colsToRecvAux, if_pos hc, colsToRecvAux, if_pos hc, List.map_cons, ih (i + 1), ih 1,
        List.map_map]
      refine congr_arg₂ (· :: ·) (by omega) ?_
      refine List.map_congr_left (fun p _ => ?_)
      simp
      omega
    · rw [colsToRecvAux, if_neg hc, colsToRecvAux, if_neg hc, ih (i + 1), ih 1, List.map_map]
      refine List.map_congr_left (fun p _ => ?_)
      simp
      omega

theorem colsToRecvAux_length (S l : List ℕ) :
    ∀ i, (colsToRecvAux S l i).length = l.countP (fun c => decide (c ∈ S)) := by
  induction l with
  | nil => intro i; simp [colsToRecvAux]
  | cons c cs ih =>
    intro i
    rw [List.countP_cons]
    by_cases hc : c ∈ S
    · rw [colsToRecvAux, if_pos hc, List.length_cons, ih (i + 1)]
      simp [hc]
    · rw [colsToRecvAux, if_neg hc, ih (i + 1)]
      simp [hc]

theorem colsToRecvAux_mem_lt (S l : List ℕ) :
    ∀ i p, p ∈ colsToRecvAux S l i → i ≤ p ∧ p < i + l.length := by
  induction l with
  | nil => intro i p hp; simp [colsToRecvAux] at hp
  | cons c cs ih =>
    intro i p hp
    rw [List.length_cons]
    by_cases hc : c ∈ S
    · rw [colsToRecvAux, if_pos hc] at hp
      rcases List.mem_cons.1 hp with rfl | hp
      · omega
      · have := ih (i + 1) p hp
        omega
    · rw [colsToRecvAux, if_neg hc] at hp
      have := ih (i + 1) p hp
      omega

theorem colsToRecvAux_map_getD (S : List ℕ) :
    ∀ L : List ℕ, (colsToRecvAux S L 0).map (fun p => L.getD p 0) =
      L.filter (fun c => decide (c ∈ S)) := by
  intro L
  induction L with
  | nil => simp [colsToRecvAux]
  | cons c cs ih =>
    have hshift := colsToRecvAux_shift S cs 1
    by_cases hc : c ∈ S
    · rw [colsToRecvAux, if_pos hc, List.map_cons, List.filter_cons]
      simp only [hc, decide_True, if_pos]
      rw [hshift, List.map_map]
      refine congrArg (fun t => c :: t) ?_
      rw [show ((fun p => (c :: cs).getD p 0) ∘ fun p => p + 1) = (fun p => cs.getD p 0) from ?_, ih]
      funext p
      simp [List.getD_cons_succ]
    · rw [colsToRecvAux, if_neg hc, List.filter_cons]
      simp only [hc, decide_False, if_neg, Bool.false_eq_true, not_false_iff]
      rw [hshift, List.map_map]
      rw [show ((fun p => (c :: cs).getD p 0) ∘ fun p => p + 1) = (fun p => cs.getD p 0) from ?_, ih]
      funext p
      simp [List.getD_cons_succ]

theorem filter_send_eq_remote (M : CSRIn) (part : ℕ → ℕ) (numDev d : ℕ) (hd : d < numDev) :
    (cols_to_send M part numDev).filter (fun c => decide (c ∈ remote_cols M part d)) =
      remote_cols M part d := by
  refine sorted_ext _ _ (List.Pairwise.filter _ (sorted_cols_to_send M part numDev))
    (sorted_remote_cols M part d) (fun x => ?_)
  rw [List.mem_filter]
  simp only [decide_eq_true_eq]
  constructor
  · exact fun h => h.2
  · intro hx
    exact ⟨(mem_cols_to_send M part numDev x).2 ⟨d, hd, hx⟩, hx⟩

theorem cols_to_recv_length (M : CSRIn) (part : ℕ → ℕ) (numDev d : ℕ) (hd : d < numDev) :
    (cols_to_recv M part numDev d).length = (remote_cols M part d).length := by
  rw [cols_to_recv, colsToRecvAux_length, List.countP_eq_length_filter,
    filter_send_eq_remote M part numDev d hd]

theorem cols_to_recv_map_getD (M : CSRIn) (part : ℕ → ℕ) (numDev d : ℕ) (hd : d < numDev) :
    (cols_to_recv M part numDev d).map (fun p => (cols_to_send M part numDev).getD p 0) =
      remote_cols M part d := by
  rw [cols_to_recv, colsToRecvAux_map_getD, filter_send_eq_remote M part numDev d hd]

theorem rank_getD (l : List ℕ) (h : l.Sorted (· < ·)) (c : ℕ) (hc : c ∈ l) :
    l.getD (l.countP (fun b => decide (b < c))) 0 = c := by
  induction l with
  | nil => simp at hc
  | cons a as ih =>
    rw [List.sorted_cons] at h
    rw [List.countP_cons]
    by_cases hac : a = c
    · subst hac
      have h0 : as.countP (fun b => decide (b < a)) = 0 := by
        rw [List.countP_eq_zero]
        intro b hb
        have := h.1 b hb
        simp only [decide_eq_true_eq]
        omega
      simp [h0]
    · have hcas : c ∈ as := by
        rcases List.mem_cons.1 hc with rfl | h'
        · exact absurd rfl hac
        · exact h'
      have hlt : a < c := h.1 c hcas
      simp only [hlt, decide_True, if_pos]
      rw [List.getD_cons_succ]
      exact ih h.2 hcas

theorem countP_lt_length_of_mem (l : List ℕ) (c : ℕ) (hc : c ∈ l) :
    l.countP (fun b => decide (b < c)) < l.length := by
  rcases Nat.lt_or_ge (l.countP (fun b => decide (b < c))) l.length with h | h
  · exact h
  · exfalso
    have heq : l.countP (fun b => decide (b < c)) = l.length :=
      le_antisymm (List.countP_le_length _) h
    rw [List.countP_eq_length] at heq
    have := heq c hc
    simp at this

theorem find?_unique (p : ℕ → Bool) (l : List ℕ) (e : ℕ) (he : e ∈ l) (hpe : p e = true)
    (huniq : ∀ a, a ∈ l → p a = true → a = e) : l.find? p = some e := by
  cases hfind : l.find? p with
  | none =>
    exact absurd hpe (List.find?_eq_none.1 hfind e he)
  | some a =>
    have h1 := List.find?_some hfind
    have h2 := List.mem_of_find?_eq_some hfind
    rw [huniq a h2 h1]

theorem sendCols_getD (M : CSRIn) (part : ℕ → ℕ) (numDev e k : ℕ)
    (hk : k < cidx M part numDev (e + 1) - cidx M part numDev e)
    (hle : cidx M part numDev (e + 1) ≤ (cols_to_send M part numDev).length) :
    (sendCols M part numDev e).getD k 0 =
      (cols_to_send M part numDev).getD (cidx M part numDev e + k) 0 - part e := by
  rw [sendCols, List.getD_eq_getElem?_getD, List.getElem?_map, List.getElem?_take, if_pos hk,
    List.getElem?_drop]
  rw [List.getD_eq_getElem?_getD]
  have hidx : cidx M part numDev e + k < (cols_to_send M part numDev).length := by omega
  rw [List.getElem?_eq_getElem hidx]
  simp

/-- The owning device of transfer-list position `i`: existence, and the
fact that `owner` finds it. -/
theorem owner_some (M : CSRIn) (part : ℕ → ℕ) (numDev n : ℕ)
    (hmono : ∀ k, k < numDev → part k ≤ part (k + 1)) (hp0 : part 0 = 0)
    (hpn : part numDev = n) (hcols : colsOk M n) (i : ℕ)
    (hi : i < (cols_to_send M part numDev).length) :
    ∃ e, e < numDev ∧
      part e ≤ (cols_to_send M part numDev).getD i 0 ∧
      (cols_to_send M part numDev).getD i 0 < part (e + 1) ∧
      owner numDev (cidx M part numDev) i = some e := by
  have hmem : (cols_to_send M part numDev).getD i 0 ∈ cols_to_send M part numDev := by
    rw [List.getD_eq_getElem?_getD, List.getElem?_eq_getElem hi]
    exact List.getElem_mem hi
  have hcn := cols_to_send_lt_n M part numDev n hcols hmono hpn _ hmem
  obtain ⟨e, he, hce1, hce2⟩ :=
    tile_exists part numDev hmono numDev (le_refl _) ((cols_to_send M part numDev).getD i 0)
      (by omega) (by omega)
  refine ⟨e, he, hce1, hce2, ?_⟩
  rw [owner]
  refine find?_unique _ _ e (List.mem_range.2 he) ?_ ?_
  · simp only [Bool.and_eq_true, decide_eq_true_eq]
    exact (supply_range_iff M part numDev hmono e i he hi).2 ⟨hce1, hce2⟩
  · intro a ha hpa
    simp only [Bool.and_eq_true, decide_eq_true_eq] at hpa
    have ha' := List.mem_range.1 ha
    have := (supply_range_iff M part numDev hmono a i ha' hi).1 hpa
    exact tile_unique part numDev hmono _ a e ha' he this ⟨hce1, hce2⟩

/-- Step 1+2 of `SpMat::mul` put the right value into every staging-array
slot: position `i` of `rx` holds the input-vector entry of the `i`-th
transfer-list column. -/
theorem rxVal_correct (M : CSRIn) (part : ℕ → ℕ) (numDev n : ℕ)
    (hmono : ∀ k, k < numDev → part k ≤ part (k + 1)) (hp0 : part 0 = 0)
    (hpn : part numDev = n) (hcols : colsOk M n) (x : ℕ → ℚ) (i : ℕ)
    (hi : i < (cols_to_send M part numDev).length) :
    rxVal M part numDev x i = x ((cols_to_send M part numDev).getD i 0) := by
  obtain ⟨e, he, hce1, hce2, howner⟩ :=
    owner_some M part numDev n hmono hp0 hpn hcols i hi
  have hrange := (supply_range_iff M part numDev hmono e i he hi).2 ⟨hce1, hce2⟩
  have hle : cidx M part numDev (e + 1) ≤ (cols_to_send M part numDev).length := by
    rw [cidx_eq_countP M part numDev hmono (e + 1) (by omega)]
    exact List.countP_le_length _
  rw [rxVal, howner]
  have hkey := sendCols_getD M part numDev e (i - cidx M part numDev e) (by omega) hle
  rw [show cidx M part numDev e + (i - cidx M part numDev e) = i from by omega] at hkey
  show xdist part x e ((sendCols M part numDev e).getD (i - cidx M part numDev e) 0) =
    x ((cols_to_send M part numDev).getD i 0)
  rw [hkey, xdist]
  refine congrArg x ?_
  omega

/-- Step 4's scatter delivers to ghost slot `r2l S c` exactly the value
of column `c`, for every remote column `c` of device `d`. -/
theorem ghost_correct (M : CSRIn) (part : ℕ → ℕ) (numDev n : ℕ)
    (hmono : ∀ k, k < numDev → part k ≤ part (k + 1)) (hp0 : part 0 = 0)
    (hpn : part numDev = n) (hcols : colsOk M n) (x : ℕ → ℚ) (d : ℕ) (hd : d < numDev)
    (c : ℕ) (hc : c ∈ remote_cols M part d) :
    ghost M part numDev d x (r2l (remote_cols M part d) c) = x c := by
  have hrank := countP_lt_length_of_mem (remote_cols M part d) c hc
  have hlen := cols_to_recv_length M part numDev d hd
  have hmap := cols_to_recv_map_getD M part numDev d hd
  have hklen : r2l (remote_cols M part d) c < (cols_to_recv M part numDev d).length := by
    rw [hlen]
    exact hrank
  set k := r2l (remote_cols M part d) c with hk
  set i := (cols_to_recv M part numDev d).getD k 0 with hidef
  have himem : i ∈ cols_to_recv M part numDev d := by
    rw [hidef, List.getD_eq_getElem?_getD, List.getElem?_eq_getElem hklen]
    exact List.getElem_mem hklen
  have hibound := colsToRecvAux_mem_lt (remote_cols M part d) (cols_to_send M part numDev) 0 i
    (by rw [cols_to_recv] at himem; exact himem)
  have hiL : i < (cols_to_send M part numDev).length := by omega
  have hgetc : (cols_to_send M part numDev).getD i 0 = c := by
    have hmk := congrArg (fun t => t.getD k 0) hmap
    simp only at hmk
    rw [List.getD_eq_getElem?_getD, List.getElem?_map, List.getElem?_eq_getElem hklen] at hmk
    simp only [Option.getD_some, Option.map_some'] at hmk
    have hik : i = (cols_to_recv M part numDev d)[k] := by
      rw [hidef]
      exact List.getD_eq_getElem _ _ hklen
    rw [hik, hmk, hk, r2l]
    exact rank_getD (remote_cols M part d) (sorted_remote_cols M part d) c hc
  rw [ghost, ← hidef, rxVal_correct M part numDev n hmono hp0 hpn hcols x i hiL, hgetc]

/-! ### The two engines compute the per-row contributions -/

theorem ellRow_eq_rowContrib (w : ℕ) (es : List (ℕ × ℚ)) (x : ℕ → ℚ) (h : es.length ≤ w) :
    ellRow w es x = rowContrib es x := by
  rw [ellRow, kernelSum_range, rowContrib_eq_sum]
  rw [← Finset.sum_subset (Finset.range_subset.2 h)]
  · refine Finset.sum_congr rfl (fun j hj => ?_)
    rw [Finset.mem_range] at hj
    rw [Nat.zero_add, List.getElem?_eq_getElem hj, List.getD_eq_getElem?_getD,
      List.getElem?_eq_getElem hj]
    rfl
  · intro j _ hj
    rw [Finset.mem_range] at hj
    rw [Nat.zero_add, List.getElem?_eq_none (by omega)]

theorem foldr_max_le (l : List ℕ) (a : ℕ) (h : a ∈ l) : a ≤ l.foldr max 0 := by
  induction l with
  | nil => simp at h
  | cons b bs ih =>
    rcases List.mem_cons.1 h with rfl | h'
    · exact le_max_left _ _
    · exact le_trans (ih h') (le_max_right _ _)

theorem length_le_locw (M : CSRIn) (beg fin i : ℕ) (h1 : beg ≤ i) (h2 : i < fin) :
    (localPart M beg fin i).length ≤ locw M beg fin := by
  refine foldr_max_le _ _ (List.mem_map.2 ⟨i, ?_, rfl⟩)
  rw [List.mem_range'_1]
  omega

theorem length_le_remw (M : CSRIn) (beg fin : ℕ) (S : List ℕ) (i : ℕ)
    (h1 : beg ≤ i) (h2 : i < fin) :
    (remotePart M beg fin S i).length ≤ remw M beg fin S := by
  refine foldr_max_le _ _ (List.mem_map.2 ⟨i, ?_, rfl⟩)
  rw [List.mem_range'_1]
  omega

theorem rowPtr_cons_succ (r : List (ℕ × ℚ)) (rs : List (List (ℕ × ℚ))) (i : ℕ) :
    rowPtr (r :: rs) (i + 1) = r.length + rowPtr rs i := by
  rw [rowPtr, rowPtr, List.take_succ_cons, List.map_cons, List.sum_cons]

theorem kernelSum_shift (f : ℕ → ℚ) (m a c : ℕ) :
    kernelSum f (m + a) c = kernelSum (fun j => f (m + j)) a c := by
  rw [kernelSum_range, kernelSum_range]
  refine Finset.sum_congr rfl (fun j _ => ?_)
  rw [Nat.add_assoc]

theorem csrRow_eq_rowContrib (rows : List (List (ℕ × ℚ))) (x : ℕ → ℚ) :
    ∀ i, i < rows.length → csrRow rows x i = rowContrib (rows.getD i []) x := by
  induction rows with
  | nil => simp
  | cons r rs ih =>
    intro i hi
    cases i with
    | zero =>
      rw [csrRow, rowPtr_cons_succ, show rowPtr (r :: rs) 0 = 0 from rfl,
        show rowPtr rs 0 = 0 from rfl, Nat.add_zero, Nat.sub_zero, kernelSum_range,
        List.getD_cons_zero, rowContrib_eq_sum]
      refine Finset.sum_congr rfl (fun j hj => ?_)
      rw [Finset.mem_range] at hj
      have hj' : j < (r.map Prod.snd).length := by simp [hj]
      have hj'' : j < (r.map Prod.fst).length := by simp [hj]
      rw [Nat.zero_add, flatVals, flatCols, List.flatten_cons, List.map_append, List.map_append,
        List.getD_append _ _ _ _ hj', List.getD_append _ _ _ _ hj'']
      rw [List.getD_eq_getElem?_getD, List.getElem?_map, List.getElem?_eq_getElem hj,
        List.getD_eq_getElem?_getD, List.getElem?_map, List.getElem?_eq_getElem hj,
        List.getD_eq_getElem?_getD, List.getElem?_eq_getElem hj]
      simp [entryTerm]
    | succ i =>
      rw [List.length_cons] at hi
      rw [csrRow, rowPtr_cons_succ, rowPtr_cons_succ, Nat.add_sub_add_left, kernelSum_shift,
        List.getD_cons_succ]
      rw [← ih i (by omega), csrRow]
      refine kernelSum_congr _ _ _ _ (fun j hj1 hj2 => ?_)
      have hrv : (flatVals (r :: rs)).getD (r.length + j) 0 = (flatVals rs).getD j 0 := by
        rw [flatVals, List.flatten_cons, List.map_append,
          List.getD_append_right _ _ _ _ (by simp)]
        simp [flatVals]
      have hrc : (flatCols (r :: rs)).getD (r.length + j) 0 = (flatCols rs).getD j 0 := by
        rw [flatCols, List.flatten_cons, List.map_append,
          List.getD_append_right _ _ _ _ (by simp)]
        simp [flatCols]
      rw [hrv, hrc]

theorem lrows_getD (M : CSRIn) (beg fin k : ℕ) (hk : k < fin - beg) :
    (lrows M beg fin).getD k [] = localPart M beg fin (beg + k) := by
  rw [lrows, List.getD_eq_getElem?_getD, List.getElem?_map]
  have hk' : k < (List.range' beg (fin - beg)).length := by simp [hk]
  rw [List.getElem?_eq_getElem hk']
  simp

theorem rrows_getD (M : CSRIn) (beg fin : ℕ) (S : List ℕ) (k : ℕ) (hk : k < fin - beg) :
    (rrows M beg fin S).getD k [] = remotePart M beg fin S (beg + k) := by
  rw [rrows, List.getD_eq_getElem?_getD, List.getElem?_map]
  have hk' : k < (List.range' beg (fin - beg)).length := by simp [hk]
  rw [List.getElem?_eq_getElem hk']
  simp

theorem lrows_length (M : CSRIn) (beg fin : ℕ) : (lrows M beg fin).length = fin - beg := by
  simp [lrows]

theorem rrows_length (M : CSRIn) (beg fin : ℕ) (S : List ℕ) :
    (rrows M beg fin S).length = fin - beg := by
  simp [rrows]

/-- Both engines' `mul_local` compute, for every row of the strip, the
set/add combination of `alpha` times the local row contribution. -/
theorem ell_mul_local_eq (M : CSRIn) (beg fin : ℕ) (x y : ℕ → ℚ) (alpha : ℚ)
    (append : Bool) (k : ℕ) :
    ell_mul_local M beg fin x y alpha append k =
      if k < fin - beg then
        (if append then y k else 0) + alpha * rowContrib (localPart M beg fin (beg + k)) x
      else y k := by
  rw [ell_mul_local]
  by_cases hk : k < fin - beg
  · rw [if_pos hk, if_pos hk,
      ellRow_eq_rowContrib _ _ _ (length_le_locw M beg fin (beg + k) (by omega) (by omega))]
    cases append with
    | false => simp
    | true => simp
  · rw [if_neg hk, if_neg hk]

theorem csr_mul_local_eq (M : CSRIn) (beg fin : ℕ) (x y : ℕ → ℚ) (alpha : ℚ)
    (append : Bool) (k : ℕ) :
    csr_mul_local M beg fin x y alpha append k =
      if k < fin - beg then
        (if append then y k else 0) + alpha * rowContrib (localPart M beg fin (beg + k)) x
      else y k := by
  rw [csr_mul_local]
  by_cases hk : k < fin - beg
  · rw [if_pos hk, if_pos hk,
      csrRow_eq_rowContrib _ _ k (by rw [lrows_length]; omega), lrows_getD M beg fin k hk]
    cases append with
    | false => simp
    | true => simp
  · rw [if_neg hk, if_neg hk]

theorem ell_mul_remote_eq (M : CSRIn) (beg fin : ℕ) (S : List ℕ) (x y : ℕ → ℚ)
    (alpha : ℚ) (k : ℕ) :
    ell_mul_remote M beg fin S x y alpha k =
      if k < fin - beg then
        y k + alpha * rowContrib (remotePart M beg fin S (beg + k)) x
      else y k := by
  rw [ell_mul_remote]
  by_cases hk : k < fin - beg
  · rw [if_pos hk, if_pos hk,
      ellRow_eq_rowContrib _ _ _ (length_le_remw M beg fin S (beg + k) (by omega) (by omega))]
  · rw [if_neg hk, if_neg hk]

theorem csr_mul_remote_eq (M : CSRIn) (beg fin : ℕ) (S : List ℕ) (x y : ℕ → ℚ)
    (alpha : ℚ) (k : ℕ) :
    csr_mul_remote M beg fin S x y alpha k =
      if k < fin - beg then
        y k + alpha * rowContrib (remotePart M beg fin S (beg + k)) x
      else y k := by
  rw [csr_mul_remote]
  by_cases hk : k < fin - beg
  · rw [if_pos hk, if_pos hk,
      csrRow_eq_rowContrib _ _ k (by rw [rrows_length]; omega), rrows_getD M beg fin S k hk]
  · rw [if_neg hk, if_neg hk]

/-! ### Splitting a row into its local and remote contributions -/

theorem filter_split_sum (l : List ℕ) (p : ℕ → Bool) (f : ℕ → ℚ) :
    ((l.filter p).map f).sum + ((l.filter (fun j => !p j)).map f).sum = (l.map f).sum := by
  induction l with
  | nil => simp
  | cons a as ih =>
    by_cases ha : p a
    · rw [List.filter_cons_of_pos (by simp [ha]), List.filter_cons_of_neg (by simp [ha])]
      simp only [List.map_cons, List.sum_cons]
      rw [← ih]
      ring
    · rw [List.filter_cons_of_neg (by simp [ha]), List.filter_cons_of_pos (by simp [ha])]
      simp only [List.map_cons, List.sum_cons]
      rw [← ih]
      ring

theorem range'_map_sum (f : ℕ → ℚ) (c : ℕ) :
    ∀ a, ((List.range' a c).map f).sum = ∑ j ∈ Finset.range c, f (a + j) := by
  induction c with
  | zero => intro a; simp
  | succ c ih =>
    intro a
    rw [List.range'_succ, List.map_cons, List.sum_cons, ih (a + 1), Finset.sum_range_succ']
    simp [Nat.add_comm, Nat.add_assoc, Nat.add_left_comm, add_comm]

/-- A row's local and remote stored contributions sum to the full dot
product of the original row, provided the local input holds the right
strip values and the ghost input holds the right remote values. -/
theorem row_split (M : CSRIn) (beg fin : ℕ) (S : List ℕ) (x xd g : ℕ → ℚ) (i : ℕ)
    (hx : ∀ j ∈ rowIdx M i, (decide (beg ≤ M.col j) && decide (M.col j < fin)) = true →
      xd (M.col j - beg) = x (M.col j))
    (hg : ∀ j ∈ rowIdx M i, (decide (beg ≤ M.col j) && decide (M.col j < fin)) = false →
      g (r2l S (M.col j)) = x (M.col j)) :
    rowContrib (localPart M beg fin i) xd + rowContrib (remotePart M beg fin S i) g =
      ∑ j ∈ Finset.Ico (M.row i) (M.row (i + 1)), M.val j * x (M.col j) := by
  have hlocal : rowContrib (localPart M beg fin i) xd =
      (((rowIdx M i).filter (fun j => decide (beg ≤ M.col j) && decide (M.col j < fin))).map
        (fun j => M.val j * x (M.col j))).sum := by
    rw [rowContrib, localPart, List.map_map]
    refine congrArg List.sum (List.map_congr_left (fun j hj => ?_))
    rw [List.mem_filter] at hj
    simp only [Function.comp, entryTerm]
    rw [hx j hj.1 hj.2]
  have hremote : rowContrib (remotePart M beg fin S i) g =
      (((rowIdx M i).filter
          (fun j => !(decide (beg ≤ M.col j) && decide (M.col j < fin)))).map
        (fun j => M.val j * x (M.col j))).sum := by
    rw [rowContrib, remotePart, List.map_map]
    refine congrArg List.sum (List.map_congr_left (fun j hj => ?_))
    rw [List.mem_filter] at hj
    simp only [Function.comp, entryTerm]
    rw [hg j hj.1 (by have h2 := hj.2; simp only [Bool.not_eq_true'] at h2; exact h2)]
  rw [hlocal, hremote, filter_split_sum, rowIdx, range'_map_sum, Finset.sum_Ico_eq_sum_range]

/-- The remote part of every row of device `d`'s strip is referenced in
`remote_cols d`. -/
theorem col_mem_remote_cols (M : CSRIn) (part : ℕ → ℕ) (d i j : ℕ)
    (hi1 : part d ≤ i) (hi2 : i < part (d + 1)) (hj : j ∈ rowIdx M i)
    (hrem : (decide (part d ≤ M.col j) && decide (M.col j < part (d + 1))) = false) :
    M.col j ∈ remote_cols M part d := by
  rw [mem_rowIdx] at hj
  refine (mem_remote_cols M part d (M.col j)).2 ⟨i, hi1, hi2, j, hj.1, hj.2, rfl, ?_⟩
  simp only [Bool.and_eq_false_iff, decide_eq_false_iff_not] at hrem
  omega

/-- The central correctness lemma: one `SpMat::mul` call leaves in slot
`k` of device `d`'s output buffer the set/add combination of `alpha`
times the full dot product of global row `part d + k`. -/
theorem dev_mul_eq (M : CSRIn) (part : ℕ → ℕ) (numDev n : ℕ) (isCPU : ℕ → Bool)
    (hmono : ∀ q, q < numDev → part q ≤ part (q + 1)) (hp0 : part 0 = 0)
    (hpn : part numDev = n) (hcols : colsOk M n) (d : ℕ) (hd : d < numDev)
    (x y : ℕ → ℚ) (alpha : ℚ) (append : Bool) (k : ℕ) (hk : part d + k < part (d + 1)) :
    dev_mul M part numDev isCPU d x y alpha append k =
      (if append then y k else 0) +
        alpha * ∑ j ∈ Finset.Ico (M.row (part d + k)) (M.row (part d + k + 1)),
          M.val j * x (M.col j) := by
  have hbf : part d < part (d + 1) := by omega
  have hkfin : k < part (d + 1) - part d := by omega
  have hy1 : (if part d < part (d + 1) then
        if isCPU d then csr_mul_local M (part d) (part (d + 1)) (xdist part x d) y alpha append
        else ell_mul_local M (part d) (part (d + 1)) (xdist part x d) y alpha append
      else y) k =
      (if append then y k else 0) +
        alpha * rowContrib (localPart M (part d) (part (d + 1)) (part d + k)) (xdist part x d) := by
    rw [if_pos hbf]
    cases hcpu : isCPU d with
    | true => rw [if_pos rfl, csr_mul_local_eq, if_pos hkfin]
    | false => rw [if_neg (by simp), ell_mul_local_eq, if_pos hkfin]
  have hxd : ∀ j ∈ rowIdx M (part d + k),
      (decide (part d ≤ M.col j) && decide (M.col j < part (d + 1))) = true →
      xdist part x d (M.col j - part d) = x (M.col j) := by
    intro j _ hj
    simp only [Bool.and_eq_true, decide_eq_true_eq] at hj
    rw [xdist]
    refine congrArg x ?_
    omega
  by_cases hS : remote_cols M part d = []
  · have hrecv : (cols_to_recv M part numDev d).length = 0 := by
      rw [cols_to_recv, colsToRecvAux_length, List.countP_eq_zero]
      intro c _
      simp [hS]
    simp only [dev_mul]
    rw [if_neg (show ¬((cols_to_send M part numDev).length ≠ 0 ∧
      (cols_to_recv M part numDev d).length ≠ 0) from fun h => h.2 hrecv)]
    rw [hy1]
    have hrem_nil : remotePart M (part d) (part (d + 1)) (remote_cols M part d) (part d + k) = [] := by
      rw [remotePart, List.map_eq_nil_iff, List.filter_eq_nil_iff]
      intro j hj
      simp only [Bool.not_eq_true']
      intro hfalse
      have := col_mem_remote_cols M part d (part d + k) j (by omega) (by omega) hj hfalse
      rw [hS] at this
      simp at this
    have hsplit := row_split M (part d) (part (d + 1)) (remote_cols M part d) x
      (xdist part x d) (fun _ => 0) (part d + k) hxd
      (fun j hj hfalse => by
        have := col_mem_remote_cols M part d (part d + k) j (by omega) (by omega) hj hfalse
        rw [hS] at this
        simp at this)
    rw [hrem_nil] at hsplit
    rw [show rowContrib [] (fun _ => (0 : ℚ)) = 0 from rfl, add_zero] at hsplit
    rw [hsplit]
  · have hrecv : (cols_to_recv M part numDev d).length ≠ 0 := by
      rw [cols_to_recv_length M part numDev d hd]
      intro h0
      exact hS (List.length_eq_zero.1 h0)
    have hsend : (cols_to_send M part numDev).length ≠ 0 := by
      obtain ⟨c, hc⟩ := List.exists_mem_of_ne_nil _ hS
      have : c ∈ cols_to_send M part numDev := (mem_cols_to_send M part numDev c).2 ⟨d, hd, hc⟩
      intro h0
      rw [List.length_eq_zero.1 h0] at this
      simp at this
    simp only [dev_mul]
    rw [if_pos ⟨hsend, hrecv⟩]
    have hsplit := row_split M (part d) (part (d + 1)) (remote_cols M part d) x
      (xdist part x d) (ghost M part numDev d x) (part d + k) hxd
      (fun j hj hfalse => by
        have hmem := col_mem_remote_cols M part d (part d + k) j (by omega) (by omega) hj hfalse
        exact ghost_correct M part numDev n hmono hp0 hpn hcols x d hd (M.col j) hmem)
    cases hcpu : isCPU d with
    | true =>
      rw [if_pos rfl, csr_mul_remote_eq, if_pos hkfin]
      rw [show (isCPU d = true) from hcpu] at hy1
      rw [hy1]
      rw [← hsplit]
      ring
    | false =>
      rw [if_neg (by simp), ell_mul_remote_eq, if_pos hkfin]
      rw [show (isCPU d = false) from hcpu] at hy1
      rw [hy1]
      rw [← hsplit]
      ring

/-! ### The Row-Pointer engine's fast path -/

theorem chain_mono (f : ℕ → ℕ) (a : ℕ) :
    ∀ b, (∀ t, a ≤ t → t < b → f t ≤ f (t + 1)) → a ≤ b → f a ≤ f b := by
  intro b
  induction b with
  | zero =>
    intro _ hab
    have : a = 0 := by omega
    rw [this]
  | succ b ih =>
    intro h hab
    rcases Nat.eq_or_lt_of_le hab with heq | hlt
    · rw [heq]
    · exact le_trans (ih (fun t ht1 ht2 => h t ht1 (by omega)) (by omega))
        (h b (by omega) (by omega))

theorem range'_join (s m n : ℕ) :
    List.range' s m ++ List.range' (s + m) n = List.range' s (m + n) := by
  have h := List.range'_append s m n 1
  rw [Nat.one_mul] at h
  rw [h, Nat.add_comm n m]

theorem rowIdx_flatten (M : CSRIn) :
    ∀ c a, (∀ t, t < c → M.row (a + t) ≤ M.row (a + t + 1)) →
      ((List.range' a c).map (rowIdx M)).flatten =
        List.range' (M.row a) (M.row (a + c) - M.row a) := by
  intro c
  induction c with
  | zero => intro a _; simp
  | succ c ih =>
    intro a h
    rw [List.range'_succ, List.map_cons, List.flatten_cons, ih (a + 1)
      (fun t ht => by
        have h' := h (t + 1) (by omega)
        have e1 : a + (t + 1) = a + 1 + t := by omega
        rw [e1] at h'
        exact h')]
    have h0 := h 0 (by omega)
    rw [Nat.add_zero] at h0
    have hchain : M.row (a + 1) ≤ M.row (a + 1 + c) := by
      refine chain_mono M.row (a + 1) (a + 1 + c) (fun t ht1 ht2 => ?_) (by omega)
      have h' := h (t - a) (by omega)
      have e1 : a + (t - a) = t := by omega
      rw [e1] at h'
      exact h'
    have hjoin := range'_join (M.row a) (M.row (a + 1) - M.row a)
      (M.row (a + 1 + c) - M.row (a + 1))
    rw [show M.row a + (M.row (a + 1) - M.row a) = M.row (a + 1) from by omega] at hjoin
    rw [rowIdx, hjoin]
    refine congrArg (List.range' (M.row a)) ?_
    rw [show a + (c + 1) = a + 1 + c from by omega]
    omega

theorem rowPtr_succ_getD (rows : List (List (ℕ × ℚ))) (k : ℕ) (hk : k < rows.length) :
    rowPtr rows (k + 1) = rowPtr rows k + (rows.getD k []).length := by
  rw [rowPtr, rowPtr, List.take_succ, List.map_append, List.sum_append,
    List.getElem?_eq_getElem hk]
  rw [List.getD_eq_getElem?_getD, List.getElem?_eq_getElem hk]
  simp

theorem localPart_all_local (M : CSRIn) (fin i : ℕ)
    (hall : ∀ j ∈ rowIdx M i, M.col j < fin) :
    localPart M 0 fin i = (rowIdx M i).map (fun j => (M.col j, M.val j)) := by
  rw [localPart, List.filter_eq_self.2 (fun j hj => by simp [hall j hj])]
  refine List.map_congr_left (fun j _ => ?_)
  rw [Nat.sub_zero]

theorem rowContrib_all_local (M : CSRIn) (fin i : ℕ) (x : ℕ → ℚ)
    (hall : ∀ j ∈ rowIdx M i, M.col j < fin) :
    rowContrib (localPart M 0 fin i) x =
      ∑ j ∈ Finset.Ico (M.row i) (M.row (i + 1)), M.val j * x (M.col j) := by
  rw [localPart_all_local M fin i hall, rowContrib, List.map_map, rowIdx, range'_map_sum,
    Finset.sum_Ico_eq_sum_range]
  rfl

theorem rowPtr_lrows (M : CSRIn) (fin : ℕ)
    (hmono : ∀ i, i < fin → M.row i ≤ M.row (i + 1))
    (hall : ∀ i, i < fin → ∀ j ∈ rowIdx M i, M.col j < fin) :
    ∀ k, k ≤ fin → rowPtr (lrows M 0 fin) k = M.row k - M.row 0 := by
  intro k
  induction k with
  | zero =>
    intro _
    rw [rowPtr]
    simp
  | succ k ih =>
    intro hk
    have hklt : k < (lrows M 0 fin).length := by rw [lrows_length]; omega
    rw [rowPtr_succ_getD _ _ hklt, ih (by omega), lrows_getD M 0 fin k (by omega),
      Nat.zero_add, localPart_all_local M fin k (hall k (by omega)), List.length_map, rowIdx,
      List.length_range']
    have := chain_mono M.row 0 k (fun t ht1 ht2 => hmono t (by omega)) (by omega)
    have := hmono k (by omega)
    omega

theorem flats_lrows (M : CSRIn) (fin : ℕ)
    (hmono : ∀ i, i < fin → M.row i ≤ M.row (i + 1))
    (hall : ∀ i, i < fin → ∀ j ∈ rowIdx M i, M.col j < fin) (hr0 : M.row 0 = 0) :
    flatCols (lrows M 0 fin) = (List.range (M.row fin)).map M.col ∧
      flatVals (lrows M 0 fin) = (List.range (M.row fin)).map M.val := by
  have hrows : lrows M 0 fin =
      (List.range' 0 fin).map (fun i => (rowIdx M i).map (fun j => (M.col j, M.val j))) := by
    rw [lrows]
    refine List.map_congr_left (fun i hi => ?_)
    rw [List.mem_range'_1] at hi
    exact localPart_all_local M fin i (hall i (by omega))
  have hflat : (lrows M 0 fin).flatten =
      (List.range (M.row fin)).map (fun j => (M.col j, M.val j)) := by
    rw [hrows]
    rw [show (fun i => (rowIdx M i).map (fun j => (M.col j, M.val j))) =
      (List.map (fun j => (M.col j, M.val j)) ∘ rowIdx M) from rfl]
    rw [← List.map_map, ← List.map_flatten]
    rw [rowIdx_flatten M fin 0 (fun t ht => by
        have h' := hmono t (by omega)
        rw [Nat.zero_add]
        exact h'), Nat.zero_add, hr0, Nat.sub_zero, List.range_eq_range']
  constructor
  · rw [flatCols, hflat, List.map_map]
    rfl
  · rw [flatVals, hflat, List.map_map]
    rfl

/-! ### The weighted partitioner -/

theorem alignup_eq_div (x : ℕ) : alignup x 16 = 16 * ((x + 15) / 16) := by
  rw [alignup]
  by_cases h : x % 16 = 0
  · rw [if_pos h]
    omega
  · rw [if_neg h]
    omega

theorem alignup_mono (a b : ℕ) (h : a ≤ b) : alignup a 16 ≤ alignup b 16 := by
  rw [alignup_eq_div, alignup_eq_div]
  have : (a + 15) / 16 ≤ (b + 15) / 16 := by omega
  omega

theorem cumsumW_nonneg (w : ℕ → ℚ) (hw : ∀ d, 0 ≤ w d) : ∀ d, 0 ≤ cumsumW w d := by
  intro d
  induction d with
  | zero => simp [cumsumW]
  | succ d ih =>
    rw [cumsumW]
    have := hw d
    linarith

theorem cumsumW_mono (w : ℕ → ℚ) (hw : ∀ d, 0 ≤ w d) (a b : ℕ) (h : a ≤ b) :
    cumsumW w a ≤ cumsumW w b := by
  induction b with
  | zero =>
    have : a = 0 := by omega
    rw [this]
  | succ b ih =>
    rcases Nat.eq_or_lt_of_le h with heq | hlt
    · rw [heq]
    · refine le_trans (ih (by omega)) ?_
      rw [cumsumW]
      have := hw b
      linarith

theorem cumsumW_pos (w : ℕ → ℚ) (hw : ∀ d, 0 < w d) (numDev : ℕ) (hD : 0 < numDev) :
    0 < cumsumW w numDev := by
  cases numDev with
  | zero => omega
  | succ D =>
    rw [cumsumW]
    have h1 := cumsumW_nonneg w (fun d => le_of_lt (hw d)) D
    have h2 := hw D
    linarith

/-! ### Claim theorems -/

/-- C1: for every matrix triplet with all column indices in `[0, n)`,
every vector `x`, scalar `alpha`, device count, valid partition and
per-device engine assignment, the distributed `mul(x, y, alpha,
append=false)` writes into each slot of each device's row strip exactly
the corresponding row of the single-device reference multiply
`alpha * A * x`: the local-partition contribution plus the remote
(ghost) contribution reproduces the row's full dot product. -/
theorem spmat_mul_matches_reference (M : CSRIn) (part : ℕ → ℕ) (numDev n : ℕ)
    (isCPU : ℕ → Bool) (x y : ℕ → ℚ) (alpha : ℚ)
    (hpart : validPart part numDev n) (hcols : colsOk M n)
    (d : ℕ) (hd : d < numDev) (k : ℕ) (hk : part d + k < part (d + 1)) :
    dev_mul M part numDev isCPU d x y alpha false k = refSpMV M x alpha (part d + k) := by
  obtain ⟨hp0, hpn, hmono⟩ := hpart
  rw [dev_mul_eq M part numDev n isCPU hmono hp0 hpn hcols d hd x y alpha false k hk, refSpMV]
  simp

theorem spmat_mul_matches_reference_witness :
    dev_mul triM triPart 2 triCPU 0 triX triY 1 false 0 = refSpMV triM triX 1 0 :=
  spmat_mul_matches_reference triM triPart 2 4 triCPU triX triY 1 (by decide) (by decide)
    0 (by decide) 0 (by decide)

/-- C2: for every row strip, every remote-column set and all input
buffer contents, the Padded-Width (ELL) engine and the Row-Pointer (CSR)
engine compute identical results for `mul_local` (both `append` values)
and for `mul_remote`: the engine choice never changes the output. -/
theorem engine_variants_agree (M : CSRIn) (beg fin : ℕ) (S : List ℕ) (x y : ℕ → ℚ)
    (alpha : ℚ) (append : Bool) (k : ℕ) :
    ell_mul_local M beg fin x y alpha append k = csr_mul_local M beg fin x y alpha append k ∧
    ell_mul_remote M beg fin S x y alpha k = csr_mul_remote M beg fin S x y alpha k := by
  constructor
  · rw [ell_mul_local_eq, csr_mul_local_eq]
  · rw [ell_mul_remote_eq, csr_mul_remote_eq]

/-- C3: every position of the merged transfer list lies in exactly one
device's supply sub-range `[cidx d, cidx (d+1))` (the ranges computed by
binary search of the partition boundaries over the sorted list), that
device's row range contains the column, and the column is referenced by
at least one device's remote-column set. -/
theorem transfer_list_supply_unique (M : CSRIn) (part : ℕ → ℕ) (numDev n : ℕ)
    (hpart : validPart part numDev n) (hcols : colsOk M n) (i : ℕ)
    (hi : i < (cols_to_send M part numDev).length) :
    (∃! d, d < numDev ∧ cidx M part numDev d ≤ i ∧ i < cidx M part numDev (d + 1) ∧
      part d ≤ (cols_to_send M part numDev).getD i 0 ∧
      (cols_to_send M part numDev).getD i 0 < part (d + 1)) ∧
    (∃ d, d < numDev ∧ (cols_to_send M part numDev).getD i 0 ∈ remote_cols M part d) := by
  obtain ⟨hp0, hpn, hmono⟩ := hpart
  have hmem : (cols_to_send M part numDev).getD i 0 ∈ cols_to_send M part numDev := by
    rw [List.getD_eq_getElem?_getD, List.getElem?_eq_getElem hi]
    exact List.getElem_mem hi
  constructor
  · obtain ⟨e, he, hce1, hce2, _⟩ := owner_some M part numDev n hmono hp0 hpn hcols i hi
    have hre := (supply_range_iff M part numDev hmono e i he hi).2 ⟨hce1, hce2⟩
    refine ⟨e, ⟨he, hre.1, hre.2, hce1, hce2⟩, ?_⟩
    intro d' hd'
    exact tile_unique part numDev hmono _ d' e hd'.1 he ⟨hd'.2.2.2.1, hd'.2.2.2.2⟩ ⟨hce1, hce2⟩
  · exact (mem_cols_to_send M part numDev _).1 hmem

theorem transfer_list_supply_unique_witness :
    (∃! d, d < 2 ∧ cidx triM triPart 2 d ≤ 0 ∧ 0 < cidx triM triPart 2 (d + 1) ∧
      triPart d ≤ (cols_to_send triM triPart 2).getD 0 0 ∧
      (cols_to_send triM triPart 2).getD 0 0 < triPart (d + 1)) ∧
    (∃ d, d < 2 ∧ (cols_to_send triM triPart 2).getD 0 0 ∈ remote_cols triM triPart d) :=
  transfer_list_supply_unique triM triPart 2 4 (by decide) (by decide) 0 (by decide)

/-- C4: the exchange planner's remote-column set of device `d` is
exactly the set of distinct column indices referenced by rows of `d`'s
own row range `[part d, part (d+1))` that fall outside that range (so
columns inside the range are never added and only `d`'s own rows
matter), and it holds each remote column at most once. -/
theorem remote_cols_characterization (M : CSRIn) (part : ℕ → ℕ) (d c : ℕ) :
    (c ∈ remote_cols M part d ↔
      ∃ i, part d ≤ i ∧ i < part (d + 1) ∧
        ∃ j, M.row i ≤ j ∧ j < M.row (i + 1) ∧ M.col j = c ∧
          (c < part d ∨ part (d + 1) ≤ c)) ∧
    (remote_cols M part d).Nodup :=
  ⟨mem_remote_cols M part d c,
    List.Pairwise.imp (fun hab => ne_of_lt hab) (sorted_remote_cols M part d)⟩

/-- C5 (counterexample): the weighted partitioner is NOT independent of
device order.  With two devices of weights 1 and 3 and `n = 100`, the
intermediate boundary is 32; listing the same devices in the opposite
order (weights 3 and 1, i.e. `wBA d = wAB (1 - d)`) moves it to 80, so
even the per-device row counts change (32/68 versus 20/80). -/
theorem partition_order_dependent :
    wBA 0 = wAB 1 ∧ wBA 1 = wAB 0 ∧
    partition_by_spmv_perf 100 2 wAB 1 = 32 ∧
    partition_by_spmv_perf 100 2 wBA 1 = 80 := by
  refine ⟨by decide, by decide, ?_, ?_⟩
  · rw [partition_by_spmv_perf, if_neg (by omega), if_neg (by omega),
      if_pos ⟨by omega, by omega⟩]
    have hc : ((100 : ℕ) : ℚ) * cumsumW wAB 1 / cumsumW wAB 2 = 25 := by
      push_cast
      norm_num [cumsumW, wAB]
    rw [hc, show Nat.floor (25 : ℚ) = 25 from by norm_num, alignup]
    norm_num
  · rw [partition_by_spmv_perf, if_neg (by omega), if_neg (by omega),
      if_pos ⟨by omega, by omega⟩]
    have hc : ((100 : ℕ) : ℚ) * cumsumW wBA 1 / cumsumW wBA 2 = 75 := by
      push_cast
      norm_num [cumsumW, wBA]
    rw [hc, show Nat.floor (75 : ℚ) = 75 from by norm_num, alignup]
    norm_num

/-- C5 (amended): for at least one device and positive per-device
weights, the weighted partitioner produces boundaries that start at 0,
are non-decreasing (so every device's range is non-negative, possibly
empty) and end exactly at `n` (forced regardless of rounding); the
partition may however depend on the device order (see the
counterexample), except in the uniform-weight case. -/
theorem partition_by_spmv_perf_valid (n numDev : ℕ) (w : ℕ → ℚ) (hD : 0 < numDev)
    (hw : ∀ d, 0 < w d) :
    partition_by_spmv_perf n numDev w 0 = 0 ∧
    partition_by_spmv_perf n numDev w numDev = n ∧
    ∀ d, d < numDev →
      partition_by_spmv_perf n numDev w d ≤ partition_by_spmv_perf n numDev w (d + 1) := by
  have hp0 : partition_by_spmv_perf n numDev w 0 = 0 := by
    rw [partition_by_spmv_perf, if_neg (by omega), if_pos rfl]
  have hpn : partition_by_spmv_perf n numDev w numDev = n := by
    rw [partition_by_spmv_perf, if_pos rfl]
  refine ⟨hp0, hpn, fun d hd => ?_⟩
  by_cases hd0 : d = 0
  · subst hd0
    rw [hp0]
    exact Nat.zero_le _
  · have hD2 : 1 < numDev := by omega
    have hLHS : partition_by_spmv_perf n numDev w d =
        min n (alignup (Nat.floor ((n : ℚ) * cumsumW w d / cumsumW w numDev)) 16) := by
      rw [partition_by_spmv_perf, if_neg (by omega), if_neg hd0, if_pos ⟨hD2, hd⟩]
    by_cases hlast : d + 1 = numDev
    · rw [hLHS, hlast, hpn]
      exact min_le_left _ _
    · have hRHS : partition_by_spmv_perf n numDev w (d + 1) =
          min n (alignup (Nat.floor ((n : ℚ) * cumsumW w (d + 1) / cumsumW w numDev)) 16) := by
        rw [partition_by_spmv_perf, if_neg hlast, if_neg (by omega), if_pos ⟨hD2, by omega⟩]
      rw [hLHS, hRHS]
      refine min_le_min (le_refl n) (alignup_mono _ _ (Nat.floor_le_floor ?_))
      have hcd := cumsumW_mono w (fun e => le_of_lt (hw e)) d (d + 1) (by omega)
      have hcB := cumsumW_pos w hw numDev hD
      gcongr

theorem partition_by_spmv_perf_valid_witness :
    partition_by_spmv_perf 100 2 wAB 0 = 0 ∧
    partition_by_spmv_perf 100 2 wAB 2 = 100 ∧
    partition_by_spmv_perf 100 2 wAB 1 ≤ partition_by_spmv_perf 100 2 wAB 2 :=
  ⟨(partition_by_spmv_perf_valid 100 2 wAB (by decide)
      (fun d => by rw [wAB]; split <;> norm_num)).1,
   (partition_by_spmv_perf_valid 100 2 wAB (by decide)
      (fun d => by rw [wAB]; split <;> norm_num)).2.1,
   (partition_by_spmv_perf_valid 100 2 wAB (by decide)
      (fun d => by rw [wAB]; split <;> norm_num)).2.2 1 (by decide)⟩

/-- C6: whenever the merged transfer list is empty — in particular in
the single-device case with all columns in `[0, n)` — a multiply issues
only the per-device local multiplies (no gather, transfer, wait, scatter
or remote multiply), and construction allocates no exchange buffers at
all (no send buffers, no ghost buffers, no host staging array). -/
theorem empty_transfer_list_local_only (M : CSRIn) (part : ℕ → ℕ) (numDev n : ℕ)
    (h : (numDev = 1 ∧ part 0 = 0 ∧ part 1 = n ∧ colsOk M n) ∨
      cols_to_send M part numDev = []) :
    cols_to_send M part numDev = [] ∧
    mulTrace M part numDev = (List.range numDev).flatMap
      (fun d => if part d < part (d + 1) then [MulOp.localMulOp d] else []) ∧
    exchangeAllocs M part numDev = [] := by
  have hempty : cols_to_send M part numDev = [] := by
    rcases h with ⟨h1, hp0, hpn, hcols⟩ | h
    · subst h1
      have hrc : remote_cols M part 0 = [] := by
        rw [List.eq_nil_iff_forall_not_mem]
        intro c hc
        obtain ⟨i, hi1, hi2, j, hj1, hj2, hcj, hrem⟩ := (mem_remote_cols M part 0 c).1 hc
        rw [Nat.zero_add] at hi2 hrem
        have hcn : M.col j < n := hcols i (by omega) j hj2 hj1
        omega
      rw [cols_to_send, show List.range 1 = [0] from rfl, List.foldl_cons, List.foldl_nil, hrc]
      rfl
    · exact h
  refine ⟨hempty, ?_, ?_⟩
  · rw [mulTrace, hempty]
    simp
  · rw [exchangeAllocs, hempty]
    simp

theorem empty_transfer_list_local_only_witness :
    cols_to_send triM onePart 1 = [] ∧
    mulTrace triM onePart 1 = (List.range 1).flatMap
      (fun d => if onePart d < onePart (d + 1) then [MulOp.localMulOp d] else []) ∧
    exchangeAllocs triM onePart 1 = [] :=
  empty_transfer_list_local_only triM onePart 1 4 (by decide)

/-- C7: with `alpha = 1` and a zero-initialized `y`, two multiplies with
`append = true` leave `2 * (A x)` in every row of every strip, and one
multiply with `append = false` followed by one with `append = true`
leaves the same values: `append = false` overwrites `y` with
`alpha*A*x`, `append = true` accumulates onto it. -/
theorem append_accumulates (M : CSRIn) (part : ℕ → ℕ) (numDev n : ℕ)
    (isCPU : ℕ → Bool) (x : ℕ → ℚ)
    (hpart : validPart part numDev n) (hcols : colsOk M n)
    (d : ℕ) (hd : d < numDev) (k : ℕ) (hk : part d + k < part (d + 1)) :
    dev_mul M part numDev isCPU d x
        (dev_mul M part numDev isCPU d x (fun _ => 0) 1 true) 1 true k =
      2 * refSpMV M x 1 (part d + k) ∧
    dev_mul M part numDev isCPU d x
        (dev_mul M part numDev isCPU d x (fun _ => 0) 1 false) 1 true k =
      dev_mul M part numDev isCPU d x
        (dev_mul M part numDev isCPU d x (fun _ => 0) 1 true) 1 true k := by
  obtain ⟨hp0, hpn, hmono⟩ := hpart
  have h1 := dev_mul_eq M part numDev n isCPU hmono hp0 hpn hcols d hd x
    (fun _ => 0) 1 true k hk
  have h2 := dev_mul_eq M part numDev n isCPU hmono hp0 hpn hcols d hd x
    (fun _ => 0) 1 false k hk
  have h3 := dev_mul_eq M part numDev n isCPU hmono hp0 hpn hcols d hd x
    (dev_mul M part numDev isCPU d x (fun _ => 0) 1 true) 1 true k hk
  have h4 := dev_mul_eq M part numDev n isCPU hmono hp0 hpn hcols d hd x
    (dev_mul M part numDev isCPU d x (fun _ => 0) 1 false) 1 true k hk
  simp at h1 h2 h3 h4
  rw [h3, h1, h4, h2, refSpMV]
  constructor
  · ring
  · ring

theorem append_accumulates_witness :
    dev_mul triM triPart 2 triCPU 1 triX
        (dev_mul triM triPart 2 triCPU 1 triX (fun _ => 0) 1 true) 1 true 0 =
      2 * refSpMV triM triX 1 (triPart 1 + 0) ∧
    dev_mul triM triPart 2 triCPU 1 triX
        (dev_mul triM triPart 2 triCPU 1 triX (fun _ => 0) 1 false) 1 true 0 =
      dev_mul triM triPart 2 triCPU 1 triX
        (dev_mul triM triPart 2 triCPU 1 triX (fun _ => 0) 1 true) 1 true 0 :=
  append_accumulates triM triPart 2 4 triCPU triX (by decide) (by decide) 1 (by decide)
    0 (by decide)

/-- C8: the stencil-relative (CCSR) engine computes, for every row
`i < n`, `y[i] = alpha * sum over j in [row[idx[i]], row[idx[i]+1]) of
val[j] * x[i + col[j]]` (accumulated onto `y[i]` when `append` is set):
row selection is indirect through the shared row-pointer table indexed
by `idx[i]`, and every stored column offset is relative to `i`. -/
theorem ccsr_mul_formula (n : ℕ) (idx row : ℕ → ℕ) (col : ℕ → ℤ) (val : ℕ → ℚ)
    (x : ℤ → ℚ) (y : ℕ → ℚ) (alpha : ℚ) (append : Bool) (i : ℕ) (hi : i < n) :
    ccsr_mul n idx row col val x y alpha append i =
      (if append then y i else 0) +
        alpha * ∑ j ∈ Finset.Ico (row (idx i)) (row (idx i + 1)),
          val j * x ((i : ℤ) + col j) := by
  rw [ccsr_mul, if_pos hi]
  have hks := kernelSum_Ico (fun j => val j * x ((i : ℤ) + col j)) (row (idx i)) (row (idx i + 1))
  rw [hks]
  cases append with
  | true => simp
  | false => simp

theorem ccsr_mul_formula_witness :
    ccsr_mul 3 ccsrIdx ccsrRowTab ccsrCol ccsrVal ccsrX triY 2 true 1 =
      (if true then triY 1 else 0) +
        2 * ∑ j ∈ Finset.Ico (ccsrRowTab (ccsrIdx 1)) (ccsrRowTab (ccsrIdx 1 + 1)),
          ccsrVal j * ccsrX ((1 : ℤ) + ccsrCol j) :=
  ccsr_mul_formula 3 ccsrIdx ccsrRowTab ccsrCol ccsrVal ccsrX triY 2 true 1 (by decide)

/-- C9: the ghost renumbering is consistent end to end: `r2l` (used
identically by both engines) maps each remote column to its rank in the
sorted remote set, the planner's recv index list lists the transfer-list
positions of exactly those columns in the same sorted order, and the
scatter of `SpMat::mul` therefore delivers into ghost slot `r2l S c`
precisely the input-vector value of column `c`. -/
theorem ghost_renumbering_consistent (M : CSRIn) (part : ℕ → ℕ) (numDev n : ℕ)
    (hpart : validPart part numDev n) (hcols : colsOk M n) (x : ℕ → ℚ)
    (d : ℕ) (hd : d < numDev) (c : ℕ) (hc : c ∈ remote_cols M part d) :
    (remote_cols M part d).getD (r2l (remote_cols M part d) c) 0 = c ∧
    (cols_to_recv M part numDev d).map
      (fun p => (cols_to_send M part numDev).getD p 0) = remote_cols M part d ∧
    ghost M part numDev d x (r2l (remote_cols M part d) c) = x c := by
  obtain ⟨hp0, hpn, hmono⟩ := hpart
  exact ⟨rank_getD _ (sorted_remote_cols M part d) c hc,
    cols_to_recv_map_getD M part numDev d hd,
    ghost_correct M part numDev n hmono hp0 hpn hcols x d hd c hc⟩

theorem ghost_renumbering_consistent_witness :
    (remote_cols triM triPart 0).getD (r2l (remote_cols triM triPart 0) 2) 0 = 2 ∧
    (cols_to_recv triM triPart 2 0).map
      (fun p => (cols_to_send triM triPart 2).getD p 0) = remote_cols triM triPart 0 ∧
    ghost triM triPart 2 0 triX (r2l (remote_cols triM triPart 0) 2) = triX 2 :=
  ghost_renumbering_consistent triM triPart 2 4 (by decide) (by decide) triX 0 (by decide)
    2 (by decide)

/-- C10: under the fast-path condition (`beg = 0` and no remote columns,
i.e. every column of the rows `[0, fin)` lies in `[0, fin)`) and for a
well-formed row pointer (`row 0 = 0`, non-decreasing), the general
rebuild path stores exactly the caller's triplet — the rebuilt row
pointers, columns and values equal the original arrays restricted to
rows `[0, fin)` — and `mul_local` through the rebuilt matrix gives the
same result as through the directly uploaded one, for all inputs. -/
theorem csr_fast_path_equivalent (M : CSRIn) (fin : ℕ) (hr0 : M.row 0 = 0)
    (hmono : ∀ i, i < fin → M.row i ≤ M.row (i + 1))
    (hall : ∀ i, i < fin → ∀ j ∈ rowIdx M i, M.col j < fin) :
    (∀ k, k ≤ fin → rowPtr (lrows M 0 fin) k = M.row k) ∧
    flatCols (lrows M 0 fin) = (List.range (M.row fin)).map M.col ∧
    flatVals (lrows M 0 fin) = (List.range (M.row fin)).map M.val ∧
    ∀ x y alpha append k,
      csr_fast_mul_local M fin x y alpha append k =
        csr_mul_local M 0 fin x y alpha append k := by
  refine ⟨fun k hk => by rw [rowPtr_lrows M fin hmono hall k hk, hr0, Nat.sub_zero],
    (flats_lrows M fin hmono hall hr0).1, (flats_lrows M fin hmono hall hr0).2, ?_⟩
  intro x y alpha append k
  rw [csr_fast_mul_local, csr_mul_local_eq, Nat.sub_zero, Nat.zero_add]
  by_cases hk : k < fin
  · rw [if_pos hk, if_pos hk, kernelSum_Ico (fun j => M.val j * x (M.col j)) (M.row k)
      (M.row (k + 1)), rowContrib_all_local M fin k x (hall k hk)]
    cases append with
    | true => simp
    | false => simp
  · rw [if_neg hk, if_neg hk]

theorem csr_fast_path_equivalent_witness :
    rowPtr (lrows triM 0 4) 4 = triM.row 4 ∧
    flatCols (lrows triM 0 4) = (List.range (triM.row 4)).map triM.col ∧
    csr_fast_mul_local triM 4 triX triY 1 false 0 = csr_mul_local triM 0 4 triX triY 1 false 0 :=
  ⟨(csr_fast_path_equivalent triM 4 (by decide) (by decide) (by decide)).1 4 (by decide),
   (csr_fast_path_equivalent triM 4 (by decide) (by decide) (by decide)).2.1,
   (csr_fast_path_equivalent triM 4 (by decide) (by decide) (by decide)).2.2.2
     triX triY 1 false 0⟩

end Vexcl
